import Mathlib

/-
  Verification of the ProGuardian CLI security core against its design
  specification.

  This file shallowly embeds the security-relevant parts of the source:
    - the POSIX path algebra used by Node's `path` module
      (`resolve` / `normalize` / `dirname`), as needed by
      `validateSafePath` (src/utils/validation.js),
    - the input validators `validateSafePath` and `validateCommand`
      (src/utils/validation.js),
    - the error-message redactor `sanitizeErrorMessage` and the error
      classes (src/utils/errors.js),
    - the secure file operations, in particular the atomic
      `secureWriteFile` and the JSON layer `secureWriteJSON` /
      `secureReadJSON` (src/utils/file-security.js), over an explicit
      filesystem state,
    - the argument scanning and context-file augmentation of the claude
      wrapper (src/wrapper/claude-wrapper.js),
    - the `init` command flow (src/commands/init.js).

  Filesystem effects are modelled by explicit state passing over a map
  from absolute path strings to file contents.  The JavaScript runtime
  primitives `JSON.stringify(·, null, 2)` / `JSON.parse` are modelled by
  an executable printer and parser over an inductive JavaScript value
  type; object-graph cycles, which make `JSON.stringify` throw, are
  modelled with explicit environment references.
-/

namespace PG

/-! ## POSIX path model (Node `path.posix`)

`path.resolve`, `path.normalize` and `path.dirname` as implemented by
Node's `path.posix`, for '/'-separated paths.  `normalizeString` is
modelled by splitting on '/' and processing segments with a stack,
which is equivalent to Node's character-wise loop. -/

/-- Split a character list on `/` separators, keeping empty segments. -/
def splitSegs (cs : List Char) : List (List Char) :=
  cs.foldr
    (fun c acc =>
      match acc with
      | [] => if c = '/' then [[], []] else [[c]]
      | seg :: rest => if c = '/' then [] :: seg :: rest else (c :: seg) :: rest)
    [[]]

/-- Segment stack processing of Node's `normalizeString`: drop empty and
`.` segments; `..` pops a previous segment, or is kept (relative paths)
resp. dropped (absolute paths) when nothing can be popped.  The first
argument accumulates processed segments in reverse. -/
def normStack (allowAbove : Bool) : List (List Char) → List (List Char) → List (List Char)
  | stack, [] => stack.reverse
  | stack, seg :: rest =>
    if seg = [] ∨ seg = ['.'] then normStack allowAbove stack rest
    else if seg = ['.', '.'] then
      match stack with
      | top :: stack2 =>
        if top = ['.', '.'] then normStack allowAbove (seg :: top :: stack2) rest
        else normStack allowAbove stack2 rest
      | [] =>
        if allowAbove then normStack allowAbove [seg] rest
        else normStack allowAbove [] rest
    else normStack allowAbove (seg :: stack) rest

/-- Join segments with `/`. -/
def joinSegs : List (List Char) → List Char
  | [] => []
  | [s] => s
  | s :: rest => s ++ '/' :: joinSegs rest

/-- Node's `normalizeString(path, allowAboveRoot)` (lexical `.`/`..`
resolution and slash collapsing). -/
def normalizeStringJS (allowAbove : Bool) (cs : List Char) : List Char :=
  joinSegs (normStack allowAbove [] (splitSegs cs))

/-- `path.posix.normalize`. -/
def pathNormalize (p : String) : String :=
  if p = "" then "."
  else
    let cs := p.data
    let isAbs := cs.head? = some '/'
    let trail := cs.getLast? = some '/'
    let core := normalizeStringJS (!isAbs) cs
    let core := if core.isEmpty ∧ ¬isAbs then ['.'] else core
    let core := if ¬core.isEmpty ∧ trail then core ++ ['/'] else core
    if isAbs then String.mk ('/' :: core) else String.mk core

/-- The right-to-left accumulation loop of `path.posix.resolve`:
concatenate path segments from last to first until an absolute one is
found.  Returns the accumulated string and whether it is absolute. -/
def resolveLoop : List String → String → String × Bool
  | [], acc => (acc, false)
  | p :: rest, acc =>
    if p = "" then resolveLoop rest acc
    else
      let acc2 := p ++ "/" ++ acc
      if p.data.head? = some '/' then (acc2, true) else resolveLoop rest acc2

/-- `path.posix.resolve(...parts)` with the process working directory
`cwd` as the final fallback (Node appends `cwd` when no part is
absolute). -/
def pathResolve (cwd : String) (parts : List String) : String :=
  let (rp, abs) := resolveLoop (parts.reverse ++ [cwd]) ""
  let core := normalizeStringJS (!abs) rp.data
  if abs then String.mk ('/' :: core)
  else if core.isEmpty then "." else String.mk core

/-- `path.posix.dirname`. -/
def pathDirname (p : String) : String :=
  if p = "" then "."
  else
    let cs := p.data
    let hasRoot := cs.head? = some '/'
    -- scan from the end (excluding index 0) for the last slash that is
    -- followed by a non-slash character (Node's matchedSlash loop)
    let n := cs.length
    let idxs := (List.range n).reverse.filter (fun i => 1 ≤ i)
    let found := idxs.foldl
      (fun (st : Option Nat × Bool) i =>
        match st with
        | (some e, m) => (some e, m)
        | (none, matchedSlash) =>
          if cs.getD i ' ' = '/' then
            if ¬matchedSlash then (some i, matchedSlash) else (none, matchedSlash)
          else (none, false))
      (none, true)
    match found.1 with
    | none => if hasRoot then "/" else "."
    | some e =>
      if hasRoot ∧ e = 1 then "//" else String.mk (cs.take e)

/-! ## String helpers mirroring JavaScript string methods -/

/-- Substring occurrence test on character lists (naive scan). -/
def listIsInfix (pat : List Char) : List Char → Bool
  | [] => pat.isEmpty
  | c :: t => List.isPrefixOf pat (c :: t) || listIsInfix pat t

/-- JavaScript `String.prototype.includes` (substring test). -/
def strContains (s pat : String) : Bool := listIsInfix pat.data s.data

/-- JavaScript `String.prototype.startsWith`. -/
def strStartsWith (s pre : String) : Bool := List.isPrefixOf pre.data s.data

/-! ## Error taxonomy (kinds only; message redaction is modelled below) -/

/-- The kinds of `GuardianError` raised by the validation and file
layers (`ValidationError`, `PathTraversalError`, `CommandInjectionError`,
`PermissionError`, generic `SecurityError`, plus a kind for re-thrown
raw I/O failures). -/
inductive ErrKind where
  | validation
  | pathTraversal
  | commandInjection
  | permission
  | security
  | io
  deriving DecidableEq, Repr

/-! ## `validateSafePath` and `validateCommand` (src/utils/validation.js) -/

/-- The blacklist of suspicious substrings scanned by
`validateSafePath` (line 98 of validation.js). -/
def suspiciousPatterns : List String :=
  ["..", "./", "~", "$", "`", "|", ";", "&", ">", "<", "\\"]

/-- `validateSafePath(targetPath, basePath)`; `cwd` models
`process.cwd()`, which `path.resolve` falls back to for relative base
paths.  Returns the resolved target on success. -/
def validateSafePath (cwd basePath targetPath : String) : Except ErrKind String :=
  if targetPath = "" then .error .validation
  else
    let resolvedTarget := pathResolve cwd [basePath, targetPath]
    let resolvedBase := pathResolve cwd [basePath]
    if ¬ strStartsWith resolvedTarget resolvedBase then .error .pathTraversal
    else
      let normalizedPath := pathNormalize targetPath
      if suspiciousPatterns.any (fun pat => strContains normalizedPath pat) then
        .error .pathTraversal
      else .ok resolvedTarget

/-- The dangerous characters rejected by `validateCommand`
(line 157 of validation.js). -/
def dangerousChars : List Char := "|;&$`><()\x7b\x7d[]".data

/-- `validateCommand(command)` (lines 151-171 of validation.js).  The
non-string case cannot arise in this embedding (arguments are strings);
the empty string is falsy and yields `ValidationError`. -/
def validateCommand (command : String) : Except ErrKind String :=
  if command = "" then .error .validation
  else if strContains command "\n" ∨ strContains command "\r" then .error .commandInjection
  else if dangerousChars.any (fun c => command.data.contains c) then .error .commandInjection
  else .ok command

/-! ## Claude wrapper argument handling (src/wrapper/claude-wrapper.js)

`process.argv` entries are always strings, so the `typeof arg !==
'string'` branch of the scan cannot fire and arguments are modelled as
strings. -/

/-- The per-argument shell-injection scan of the supervised branch
(lines 44-57): an argument is rejected if it contains `;`, `|`, `&`,
a backtick, or `$`. -/
def wrapperArgBad (a : String) : Bool :=
  strContains a ";" || strContains a "|" || strContains a "&" ||
    strContains a "`" || strContains a "$"

/-- A context-file flag spelling. -/
def isCtxFlag (a : String) : Bool := a = "--context-file" || a = "-c"

/-- The supervised-mode argument scan loop (lines 37-68): each argument
is validated and pushed; a context-file flag additionally pushes the
following argument immediately and the next iteration is skipped, so
that value bypasses validation.  `none` models `process.exit(1)` before
any spawn. -/
def processArgs : List String → Option (List String)
  | [] => some []
  | a :: rest =>
    if wrapperArgBad a then none
    else if isCtxFlag a then
      match rest with
      | [] => some [a]
      | b :: rest2 => (processArgs rest2).map (fun t => a :: b :: t)
    else (processArgs rest).map (fun t => a :: t)

/-- Scan for a context-file flag directly followed by `CLAUDE.md`
(lines 76-85). -/
def hasClaudeMd : List String → Bool
  | a :: b :: rest => (isCtxFlag a && b = "CLAUDE.md") || hasClaudeMd (b :: rest)
  | _ => false

/-- The context-file augmentation (lines 70-90): if no context-file
flag is present, or one is present but never followed by `CLAUDE.md`,
append `--context-file CLAUDE.md`. -/
def augmentArgs (safeArgs : List String) : List String :=
  if ¬ safeArgs.contains "--context-file" ∧ ¬ safeArgs.contains "-c" then
    safeArgs ++ ["--context-file", "CLAUDE.md"]
  else if hasClaudeMd safeArgs then safeArgs
  else safeArgs ++ ["--context-file", "CLAUDE.md"]

/-! ## The error-message redactor (src/utils/errors.js, lines 11-52)

`sanitizeErrorMessage` chains fourteen global regex replacements.  Each
replacement pass is modelled by a left-to-right scan: at every position
the pattern is tried (with JavaScript backtracking semantics, which for
these patterns reduce to the deterministic matchers below); on a match
the replacement tag is emitted and scanning continues after the matched
text; the lookbehind of the Unix-path pattern inspects the original
input of its pass, so matchers receive the already-scanned prefix in
reverse. -/

/-- Fuel-bounded scanner for one global regex replacement pass; each
step consumes at least one input character, so fuel equal to the input
length suffices (`scanReplace`). -/
def scanReplaceF (matchAt : List Char → List Char → Option Nat) (rep : List Char) :
    Nat → (revLeft : List Char) → (input : List Char) → List Char
  | 0, _, _ => []
  | _ + 1, _, [] => []
  | fuel + 1, left, c :: rest =>
    match matchAt left (c :: rest) with
    | some len =>
      rep ++ scanReplaceF matchAt rep fuel (((c :: rest).take len).reverse ++ left)
        (rest.drop (len - 1))
    | none => c :: scanReplaceF matchAt rep fuel (c :: left) rest

/-- One global regex replacement pass.  `matchAt revLeft input` returns
the match length at the head of `input` (`revLeft` is the scanned
prefix of this pass's input, reversed). -/
def scanReplace (matchAt : List Char → List Char → Option Nat) (rep : List Char)
    (revLeft input : List Char) : List Char :=
  scanReplaceF matchAt rep input.length revLeft input

/-- JavaScript regex `[0-9a-fA-F]`. -/
def isHexDigit (c : Char) : Bool :=
  c.isDigit || ('a' ≤ c ∧ c ≤ 'f') || ('A' ≤ c ∧ c ≤ 'F')

/-- JavaScript `\w` = `[A-Za-z0-9_]`. -/
def isWordChar (c : Char) : Bool := c.isAlphanum || c = '_'

/-- JavaScript `[^\s"'<>|]` (the character class of path runs);
`\s` restricted to ASCII whitespace. -/
def isPathChar (c : Char) : Bool :=
  !(c = ' ' || c = '\t' || c = '\n' || c = '\r' || c = '\x0b' || c = '\x0c' ||
    c = '"' || c = '\x27' || c = '<' || c = '>' || c = '|')

/-- Length of the maximal prefix of `l` satisfying `p`. -/
def takeRun (p : Char → Bool) (l : List Char) : Nat := (l.takeWhile p).length

/-- The character at index `i` is a word character (out of range counts
as non-word, matching `\b` at string edges). -/
def wordAt (l : List Char) (i : Nat) : Bool :=
  match l.get? i with
  | some c => isWordChar c
  | none => false

/-- The previous character (head of the reversed left context) is a
word character. -/
def prevWord (left : List Char) : Bool :=
  match left with
  | c :: _ => isWordChar c
  | [] => false

/-- Parse consecutive `[0-9a-fA-F]{1,4}:` groups, at most `cap` of
them (each group is a maximal hex run of length 1-4 directly followed
by `:`).  Returns (number of groups, characters consumed). -/
def hexColonGroups : Nat → List Char → Nat × Nat
  | 0, _ => (0, 0)
  | cap + 1, l =>
    let r := takeRun isHexDigit l
    if 1 ≤ r ∧ r ≤ 4 ∧ (l.drop r).head? = some ':' then
      let (g, c) := hexColonGroups cap (l.drop (r + 1))
      (g + 1, c + r + 1)
    else (0, 0)

/-- Pass 1: `([0-9a-fA-F]{1,4}:){7}[0-9a-fA-F]{1,4}` (full IPv6). -/
def m1Ipv6Full (_ l : List Char) : Option Nat :=
  let (g, c) := hexColonGroups 7 l
  if g = 7 then
    let r := min 4 (takeRun isHexDigit (l.drop c))
    if 1 ≤ r then some (c + r) else none
  else none

/-- Pass 2: `([0-9a-fA-F]{1,4}:){1,7}:` (compressed IPv6, trailing). -/
def m2Ipv6Head (_ l : List Char) : Option Nat :=
  let (g, c) := hexColonGroups 7 l
  if 1 ≤ g ∧ (l.drop c).head? = some ':' then some (c + 1) else none

/-- Pass 3: `:([0-9a-fA-F]{1,4}:){1,7}` (compressed IPv6, leading). -/
def m3Ipv6Tail (_ l : List Char) : Option Nat :=
  match l with
  | ':' :: t =>
    let (g, c) := hexColonGroups 7 t
    if 1 ≤ g then some (1 + c) else none
  | _ => none

/-- Pass 4: `([0-9a-fA-F]{1,4}:){2,}[0-9a-fA-F]{0,4}` (remaining
IPv6-like). -/
def m4Ipv6Like (_ l : List Char) : Option Nat :=
  let (g, c) := hexColonGroups l.length l
  if 2 ≤ g then
    let r := min 4 (takeRun isHexDigit (l.drop c))
    some (c + r)
  else none

/-- Pass 5: `\.{1,2}([\\/][^\s"'<>|]*)+` (relative paths).  The path
run also absorbs further slashes, so the group repeats exactly once. -/
def m5RelPath (_ l : List Char) : Option Nat :=
  match l with
  | '.' :: '.' :: c :: t =>
    if c = '/' ∨ c = '\\' then some (3 + takeRun isPathChar t)
    else match l with
      | '.' :: c2 :: t2 =>
        if c2 = '/' ∨ c2 = '\\' then some (2 + takeRun isPathChar t2) else none
      | _ => none
  | '.' :: c :: t =>
    if c = '/' ∨ c = '\\' then some (2 + takeRun isPathChar t) else none
  | _ => none

/-- Pass 6: `[a-zA-Z]:[\\//][^\s"'<>|]+` (Windows absolute paths). -/
def m6WinPath (_ l : List Char) : Option Nat :=
  match l with
  | a :: ':' :: c :: t =>
    if a.isAlpha ∧ (c = '/' ∨ c = '\\') then
      let r := takeRun isPathChar t
      if 1 ≤ r then some (3 + r) else none
    else none
  | _ => none

/-- Pass 7: `(?<!<path>)\/[^\s"'<>|]+` (Unix absolute paths, not
directly preceded by an already-inserted `<path>` tag in this pass's
input). -/
def m7UnixPath (left l : List Char) : Option Nat :=
  match l with
  | '/' :: t =>
    if List.isPrefixOf ['>', 'h', 't', 'a', 'p', '<'] left then none
    else
      let r := takeRun isPathChar t
      if 1 ≤ r then some (1 + r) else none
  | _ => none

/-- Pass 8: `\\\\[^\s"'<>|]+` (Windows UNC paths). -/
def m8UncPath (_ l : List Char) : Option Nat :=
  match l with
  | '\\' :: '\\' :: t =>
    let r := takeRun isPathChar t
    if 1 ≤ r then some (2 + r) else none
  | _ => none

/-- `n` hex digits exactly, starting at index `i` of `l`. -/
def hexAt (l : List Char) (i n : Nat) : Bool :=
  ((l.drop i).take n).length = n ∧ ((l.drop i).take n).all isHexDigit

/-- Pass 9: the UUID pattern `hex{8}-hex{4}-hex{4}-hex{4}-hex{12}`. -/
def m9Uuid (_ l : List Char) : Option Nat :=
  if hexAt l 0 8 ∧ l.get? 8 = some '-' ∧ hexAt l 9 4 ∧ l.get? 13 = some '-' ∧
      hexAt l 14 4 ∧ l.get? 18 = some '-' ∧ hexAt l 19 4 ∧ l.get? 23 = some '-' ∧
      hexAt l 24 12 then
    some 36
  else none

/-- Pass 10: `\b\d{4,}\b` (numeric IDs). -/
def m10Id (left l : List Char) : Option Nat :=
  let r := takeRun Char.isDigit l
  if 4 ≤ r ∧ ¬prevWord left ∧ ¬wordAt l r then some r else none

/-- `[A-Za-z0-9._%+-]` (email local part). -/
def isLocalChar (c : Char) : Bool :=
  c.isAlphanum || c = '.' || c = '_' || c = '%' || c = '+' || c = '-'

/-- `[A-Za-z0-9.-]` (email domain). -/
def isDomainChar (c : Char) : Bool := c.isAlphanum || c = '.' || c = '-'

/-- `[A-Z|a-z]` (the email TLD class; it literally contains `|`). -/
def isTldChar (c : Char) : Bool := c.isAlpha || c = '|'

/-- Backtracking over the TLD length `t` (descending, greedy): accept
the largest `t ≥ 2` such that a word boundary follows position
`p + t`. -/
def findTld (l : List Char) (p : Nat) : Nat → Option Nat
  | 0 => none
  | t + 1 =>
    if 2 ≤ t + 1 ∧ (wordAt l (p + t) ≠ wordAt l (p + t + 1)) then some (t + 1)
    else findTld l p t

/-- Backtracking over the domain split `d` (descending, greedy):
accept the largest `d ≥ 1` whose following character is the `\.`
before a matching TLD. -/
def findDom (l : List Char) (lLen : Nat) : Nat → Option Nat
  | 0 => none
  | d + 1 =>
    if l.get? (lLen + 1 + (d + 1)) = some '.' then
      let p := lLen + 2 + (d + 1)
      match findTld l p (takeRun isTldChar (l.drop p)) with
      | some t => some (p + t)
      | none => findDom l lLen d
    else findDom l lLen d

/-- Pass 11: `\b[A-Za-z0-9._%+-]+@[A-Za-z0-9.-]+\.[A-Z|a-z]{2,}\b`
(emails). -/
def m11Email (left l : List Char) : Option Nat :=
  if prevWord left = wordAt l 0 then none
  else
    let L := takeRun isLocalChar l
    if 1 ≤ L ∧ l.get? L = some '@' then
      let D := takeRun isDomainChar (l.drop (L + 1))
      if 1 ≤ D then findDom l L D else none
    else none

/-- One IPv4 octet followed by `.`: a maximal digit run of length 1-3
directly followed by `.`; returns the run length. -/
def octetDot (l : List Char) : Option Nat :=
  let r := takeRun Char.isDigit l
  if 1 ≤ r ∧ r ≤ 3 ∧ (l.drop r).head? = some '.' then some r else none

/-- Pass 12: `\b(?:\d{1,3}\.){3}\d{1,3}\b` (IPv4). -/
def m12Ipv4 (left l : List Char) : Option Nat :=
  if prevWord left then none
  else
    match octetDot l with
    | none => none
    | some r1 =>
      match octetDot (l.drop (r1 + 1)) with
      | none => none
      | some r2 =>
        match octetDot (l.drop (r1 + r2 + 2)) with
        | none => none
        | some r3 =>
          let off := r1 + r2 + r3 + 3
          let r4 := takeRun Char.isDigit (l.drop off)
          if 1 ≤ r4 ∧ r4 ≤ 3 ∧ ¬wordAt l (off + r4) then some (off + r4) else none

/-- Pass 13: `\b[a-fA-F0-9]{32,}\b` (hex tokens). -/
def m13HexToken (left l : List Char) : Option Nat :=
  let r := takeRun isHexDigit l
  if 32 ≤ r ∧ ¬prevWord left ∧ ¬wordAt l r then some r else none

/-- `[A-Za-z0-9+/]` (base64). -/
def isB64Char (c : Char) : Bool := c.isAlphanum || c = '+' || c = '/'

/-- Pass 14: `[A-Za-z0-9+/]{20,}={0,2}` (base64-like tokens). -/
def m14B64Token (_ l : List Char) : Option Nat :=
  let r := takeRun isB64Char l
  if 20 ≤ r then some (r + min 2 (takeRun (fun c => c = '=') (l.drop r))) else none

/-- `sanitizeErrorMessage` (errors.js lines 11-52): the fourteen
replacement passes, in source order. -/
def sanitizeErrorMessage (message : String) : String :=
  let tagIp := "<ip>".data
  let tagPath := "<path>".data
  let s := message.data
  let s := scanReplace m1Ipv6Full tagIp [] s
  let s := scanReplace m2Ipv6Head tagIp [] s
  let s := scanReplace m3Ipv6Tail tagIp [] s
  let s := scanReplace m4Ipv6Like tagIp [] s
  let s := scanReplace m5RelPath tagPath [] s
  let s := scanReplace m6WinPath tagPath [] s
  let s := scanReplace m7UnixPath tagPath [] s
  let s := scanReplace m8UncPath tagPath [] s
  let s := scanReplace m9Uuid "<uuid>".data [] s
  let s := scanReplace m10Id "<id>".data [] s
  let s := scanReplace m11Email "<email>".data [] s
  let s := scanReplace m12Ipv4 tagIp [] s
  let s := scanReplace m13HexToken "<token>".data [] s
  let s := scanReplace m14B64Token "<token>".data [] s
  String.mk s

/-! ## Error objects (src/utils/errors.js, lines 54-110) -/

/-- The displayed part of a `ProGuardianError`: `message` and `code`. -/
structure ErrorObj where
  message : String
  code : String
  deriving DecidableEq, Repr

/-- `new SecurityError(message)`: the message is sanitized at
construction time. -/
def mkSecurityError (message : String) : ErrorObj :=
  { message := sanitizeErrorMessage message, code := "SECURITY_ERROR" }

/-- `PathTraversalError`: a `SecurityError` with a fixed message; the
offending path is stored in the separate `attemptedPath` field. -/
structure PathTraversalErrorObj where
  err : ErrorObj
  attemptedPath : String
  deriving DecidableEq, Repr

/-- `new PathTraversalError(attemptedPath)` (errors.js lines 98-103). -/
def mkPathTraversalError (attemptedPath : String) : PathTraversalErrorObj :=
  { err := mkSecurityError "Invalid path: Path traversal attempt detected"
    attemptedPath := attemptedPath }

/-- `CommandInjectionError`: a `SecurityError` with a fixed message;
the offending command is stored in the separate `command` field. -/
structure CommandInjectionErrorObj where
  err : ErrorObj
  command : String
  deriving DecidableEq, Repr

/-- `new CommandInjectionError(command)` (errors.js lines 105-110). -/
def mkCommandInjectionError (command : String) : CommandInjectionErrorObj :=
  { err := mkSecurityError "Invalid command: Potentially unsafe characters detected"
    command := command }

/-! ## Filesystem state model

Files are modelled as an association list from absolute path to
content; directories are not tracked (`fs.ensureDir` has no effect on
file contents and every needed permission is modelled by `Perms`).
File size is modelled as content length. -/

/-- Filesystem contents. -/
abbrev FS := List (String × String)

/-- Look up a file's content. -/
def fsFind (fs : FS) (p : String) : Option String :=
  match fs with
  | [] => none
  | (q, c) :: t => if q = p then some c else fsFind t p

/-- Remove a file. -/
def fsErase (fs : FS) (p : String) : FS :=
  match fs with
  | [] => []
  | (q, c) :: t => if q = p then fsErase t p else (q, c) :: fsErase t p

/-- Create or replace a file. -/
def fsInsert (fs : FS) (p c : String) : FS := (p, c) :: fsErase fs p

/-- Access permissions, modelling `fs.access` outcomes for existing
files and directories. -/
structure Perms where
  canRead : String → Bool
  canWrite : String → Bool

/-- Permissions that always allow access. -/
def permsAll : Perms := ⟨fun _ => true, fun _ => true⟩

/-! ## Secure file operations (src/utils/file-security.js) -/

/-- `securePathExists` (lines 157-165): validation failures are caught
and reported as "does not exist". -/
def securePathExists (cwd : String) (fs : FS) (filePath : String) : Bool :=
  match validateSafePath cwd cwd filePath with
  | .error _ => false
  | .ok safePath => (fsFind fs safePath).isSome

/-- `secureReadFile` (lines 30-51).  `checkPermissions` succeeds only
when the file exists and is readable (`fs.access` fails on missing
files, mapping them to `PermissionError`); oversized files fail with
`SecurityError`. -/
def secureReadFile (cwd : String) (perms : Perms) (fs : FS) (filePath : String)
    (maxSize : Nat := 10485760) : Except ErrKind String :=
  match validateSafePath cwd cwd filePath with
  | .error e => .error e
  | .ok safePath =>
    match fsFind fs safePath with
    | none => .error .permission
    | some content =>
      if ¬ perms.canRead safePath then .error .permission
      else if maxSize < content.length then .error .security
      else .ok content

/-- Failure injection point for the atomic write: run to completion,
fail while writing the temporary file (which is then left holding an
arbitrary partial content before cleanup), or fail at the rename. -/
inductive WriteFailure where
  | complete
  | tmpWriteFails
  | renameFails
  deriving DecidableEq, Repr

/-- Result of a write: outcome, final filesystem, and the sequence of
filesystem states a concurrent reader could observe (initial state,
after the temporary file write, final state). -/
structure WriteResult where
  res : Except ErrKind Unit
  fs : FS
  trace : List FS

/-- `secureWriteFile` (lines 56-96): validate, check directory and
target permissions, write the full content to a `.tmp.<random hex>`
sibling, rename it over the target; on any failure after the temporary
file is created, unlink the temporary file and re-throw.
`tmpSuffix` models `crypto.randomBytes(6).toString('hex')`. -/
def secureWriteFile (cwd : String) (perms : Perms) (inject : WriteFailure)
    (partialContent : String) (fs : FS) (filePath content tmpSuffix : String) : WriteResult :=
  match validateSafePath cwd cwd filePath with
  | .error e => ⟨.error e, fs, [fs]⟩
  | .ok safePath =>
    let dir := pathDirname safePath
    if ¬ perms.canWrite dir then ⟨.error .permission, fs, [fs]⟩
    else if (fsFind fs safePath).isSome ∧ ¬ perms.canWrite safePath then
      ⟨.error .permission, fs, [fs]⟩
    else
      let tmpPath := safePath ++ ".tmp." ++ tmpSuffix
      match inject with
      | .tmpWriteFails =>
        let s1 := fsInsert fs tmpPath partialContent
        let s2 := fsErase s1 tmpPath
        ⟨.error .io, s2, [fs, s1, s2]⟩
      | .renameFails =>
        let s1 := fsInsert fs tmpPath content
        let s2 := fsErase s1 tmpPath
        ⟨.error .io, s2, [fs, s1, s2]⟩
      | .complete =>
        let s1 := fsInsert fs tmpPath content
        let s2 := fsInsert (fsErase s1 tmpPath) safePath content
        ⟨.ok (), s2, [fs, s1, s2]⟩

/-! ## JavaScript values and JSON

`JSON.stringify(data, null, 2)` and `JSON.parse` are platform builtins
used by `secureWriteJSON` / `secureReadJSON`; they are modelled over an
inductive JavaScript value type.  Sharing and cycles in JavaScript
object graphs are expressed by `vref` references into an explicit
environment; values without references are plain trees.  Numbers are
modelled as integers (the repository serializes only strings and
booleans; floating-point formatting is out of scope). -/

mutual

inductive JsVal where
  | vnull
  | vbool (b : Bool)
  | vnum (n : Int)
  | vstr (s : String)
  | varr (elems : JsArr)
  | vobj (fields : JsObj)
  | vref (id : Nat)

/-- An array of JavaScript values. -/
inductive JsArr where
  | anil
  | acons (head : JsVal) (tail : JsArr)

/-- The ordered members of a JavaScript object. -/
inductive JsObj where
  | onil
  | ocons (key : String) (val : JsVal) (tail : JsObj)

end

mutual

/-- The value contains no environment references (a plain tree). -/
def refFree : JsVal → Bool
  | .vnull => true
  | .vbool _ => true
  | .vnum _ => true
  | .vstr _ => true
  | .varr xs => refFreeArr xs
  | .vobj fs => refFreeObj fs
  | .vref _ => false

def refFreeArr : JsArr → Bool
  | .anil => true
  | .acons x t => refFree x && refFreeArr t

def refFreeObj : JsObj → Bool
  | .onil => true
  | .ocons _ v t => refFree v && refFreeObj t

end

/-- Decimal digit character. -/
def digitChar (d : Nat) : Char :=
  if d = 0 then '0' else if d = 1 then '1' else if d = 2 then '2'
  else if d = 3 then '3' else if d = 4 then '4' else if d = 5 then '5'
  else if d = 6 then '6' else if d = 7 then '7' else if d = 8 then '8' else '9'

/-- Decimal digits of `n`, least significant first (`fuel ≥ n`
suffices). -/
def natDigitsRev (fuel n : Nat) : List Char :=
  match fuel with
  | 0 => []
  | fuel + 1 => if n = 0 then [] else digitChar (n % 10) :: natDigitsRev fuel (n / 10)

/-- JavaScript decimal rendering of a natural number. -/
def printNat (n : Nat) : List Char :=
  if n = 0 then ['0'] else (natDigitsRev n n).reverse

/-- JavaScript decimal rendering of an integer. -/
def printInt (n : Int) : List Char :=
  if n < 0 then '-' :: printNat (-n).toNat else printNat n.toNat

/-- Numeric value of a decimal digit run. -/
def parseNatChars (cs : List Char) : Nat :=
  cs.foldl (fun a c => 10 * a + (c.toNat - 48)) 0

/-- Lower-case hexadecimal digit character (as emitted by
`JSON.stringify` unicode escapes). -/
def hexDigitChar (d : Nat) : Char :=
  if d < 10 then digitChar d
  else if d = 10 then 'a' else if d = 11 then 'b' else if d = 12 then 'c'
  else if d = 13 then 'd' else if d = 14 then 'e' else 'f'

/-- Value of a hexadecimal digit character. -/
def hexVal (c : Char) : Nat :=
  if c.isDigit then c.toNat - 48
  else if 'a' ≤ c ∧ c ≤ 'f' then c.toNat - 87
  else if 'A' ≤ c ∧ c ≤ 'F' then c.toNat - 55
  else 0

/-- `QuoteJSONString` escaping of one character. -/
def escapeChar (c : Char) : List Char :=
  if c = '"' then ['\\', '"']
  else if c = '\\' then ['\\', '\\']
  else if c = '\x08' then ['\\', 'b']
  else if c = '\x0c' then ['\\', 'f']
  else if c = '\n' then ['\\', 'n']
  else if c = '\x0d' then ['\\', 'r']
  else if c = '\t' then ['\\', 't']
  else if c.toNat < 32 then
    ['\\', 'u', '0', '0', hexDigitChar (c.toNat / 16), hexDigitChar (c.toNat % 16)]
  else [c]

/-- `QuoteJSONString`: a double-quoted, escaped string literal. -/
def quoteJSON (s : String) : List Char :=
  '"' :: (s.data.flatMap escapeChar ++ ['"'])

/-- Two-space indentation at depth `d` (the `gap` of
`JSON.stringify(·, null, 2)`). -/
def indentChars (d : Nat) : List Char := List.replicate (2 * d) ' '

mutual

/-- The exact text produced by `JSON.stringify(v, null, 2)` at nesting
depth `d`, for reference-free values (`vref` is related to
`JSON.stringify` through `stringifyV` below). -/
def printVal (d : Nat) : JsVal → List Char
  | .vnull => "null".data
  | .vbool true => "true".data
  | .vbool false => "false".data
  | .vnum n => printInt n
  | .vstr s => quoteJSON s
  | .varr .anil => "[]".data
  | .varr (.acons x t) =>
    '[' :: '\n' :: (indentChars (d + 1) ++ (printVal (d + 1) x ++ (printRest (d + 1) t ++
      '\n' :: (indentChars d ++ [']']))))
  | .vobj .onil => ['\x7b', '\x7d']
  | .vobj (.ocons k v t) =>
    '\x7b' :: '\n' :: (indentChars (d + 1) ++ (quoteJSON k ++ ':' :: ' ' ::
      (printVal (d + 1) v ++ (printMembersRest (d + 1) t ++
        '\n' :: (indentChars d ++ ['\x7d'])))))
  | .vref _ => "null".data

/-- The items after the first one, each preceded by `,\n` and its
indentation. -/
def printRest (d : Nat) : JsArr → List Char
  | .anil => []
  | .acons y t => ',' :: '\n' :: (indentChars d ++ (printVal d y ++ printRest d t))

/-- The members after the first one, each preceded by `,\n` and its
indentation. -/
def printMembersRest (d : Nat) : JsObj → List Char
  | .onil => []
  | .ocons k v t =>
    ',' :: '\n' :: (indentChars d ++ (quoteJSON k ++ ':' :: ' ' ::
      (printVal d v ++ printMembersRest d t)))

end

/-- JSON whitespace. -/
def isJsonWs (c : Char) : Bool := c = ' ' || c = '\t' || c = '\n' || c = '\r'

/-- Skip JSON whitespace. -/
def skipWs (l : List Char) : List Char := l.dropWhile isJsonWs

/-- Fuel-bounded body of `parseStringBody`; each step consumes at
least one character, so fuel exceeding the input length suffices. -/
def parseStringBodyF : Nat → List Char → Option (List Char × List Char)
  | 0, _ => none
  | _ + 1, [] => none
  | fuel + 1, c :: rest =>
    if c = '"' then some ([], rest)
    else if c = '\\' then
      match rest with
      | [] => none
      | e :: rest2 =>
        if e = '"' then (parseStringBodyF fuel rest2).map (fun r => ('"' :: r.1, r.2))
        else if e = '\\' then (parseStringBodyF fuel rest2).map (fun r => ('\\' :: r.1, r.2))
        else if e = '/' then (parseStringBodyF fuel rest2).map (fun r => ('/' :: r.1, r.2))
        else if e = 'b' then (parseStringBodyF fuel rest2).map (fun r => ('\x08' :: r.1, r.2))
        else if e = 'f' then (parseStringBodyF fuel rest2).map (fun r => ('\x0c' :: r.1, r.2))
        else if e = 'n' then (parseStringBodyF fuel rest2).map (fun r => ('\n' :: r.1, r.2))
        else if e = 'r' then (parseStringBodyF fuel rest2).map (fun r => ('\x0d' :: r.1, r.2))
        else if e = 't' then (parseStringBodyF fuel rest2).map (fun r => ('\t' :: r.1, r.2))
        else if e = 'u' then
          match rest2 with
          | h1 :: h2 :: h3 :: h4 :: rest3 =>
            if isHexDigit h1 ∧ isHexDigit h2 ∧ isHexDigit h3 ∧ isHexDigit h4 then
              (parseStringBodyF fuel rest3).map
                (fun r =>
                  (Char.ofNat (4096 * hexVal h1 + 256 * hexVal h2 + 16 * hexVal h3 + hexVal h4)
                    :: r.1, r.2))
            else none
          | _ => none
        else none
    else (parseStringBodyF fuel rest).map (fun r => (c :: r.1, r.2))

/-- Parse the body of a JSON string literal after the opening quote;
returns the decoded characters and the input after the closing
quote. -/
def parseStringBody (l : List Char) : Option (List Char × List Char) :=
  parseStringBodyF (l.length + 1) l

mutual

/-- Recursive-descent JSON value parser (`JSON.parse`, restricted to
integer numerals), with fuel bounding the recursion. -/
def parseVal : Nat → List Char → Option (JsVal × List Char)
  | 0, _ => none
  | fuel + 1, l =>
    match skipWs l with
    | [] => none
    | c :: t =>
      if c = 'n' then
        match t with
        | 'u' :: 'l' :: 'l' :: t2 => some (.vnull, t2)
        | _ => none
      else if c = 't' then
        match t with
        | 'r' :: 'u' :: 'e' :: t2 => some (.vbool true, t2)
        | _ => none
      else if c = 'f' then
        match t with
        | 'a' :: 'l' :: 's' :: 'e' :: t2 => some (.vbool false, t2)
        | _ => none
      else if c = '"' then
        (parseStringBody t).map (fun r => (.vstr (String.mk r.1), r.2))
      else if c = '[' then
        match skipWs t with
        | ']' :: t2 => some (.varr .anil, t2)
        | _ => (parseElems fuel t).map (fun r => (.varr r.1, r.2))
      else if c = '\x7b' then
        match skipWs t with
        | '\x7d' :: t2 => some (.vobj .onil, t2)
        | _ => (parseMembers fuel t).map (fun r => (.vobj r.1, r.2))
      else if c = '-' then
        let ds := t.takeWhile Char.isDigit
        if ds.isEmpty then none
        else some (.vnum (-(Int.ofNat (parseNatChars ds))), t.dropWhile Char.isDigit)
      else if c.isDigit then
        some (.vnum (Int.ofNat (parseNatChars ((c :: t).takeWhile Char.isDigit))),
          (c :: t).dropWhile Char.isDigit)
      else none

/-- Parse the items of a non-empty array up to `]`. -/
def parseElems : Nat → List Char → Option (JsArr × List Char)
  | 0, _ => none
  | fuel + 1, l =>
    match parseVal fuel l with
    | none => none
    | some (v, r1) =>
      match skipWs r1 with
      | ',' :: t => (parseElems fuel t).map (fun r => (.acons v r.1, r.2))
      | ']' :: t => some (.acons v .anil, t)
      | _ => none

/-- Parse the members of a non-empty object up to the closing brace. -/
def parseMembers : Nat → List Char → Option (JsObj × List Char)
  | 0, _ => none
  | fuel + 1, l =>
    match skipWs l with
    | '"' :: t =>
      match parseStringBody t with
      | none => none
      | some (k, r1) =>
        match skipWs r1 with
        | ':' :: r2 =>
          match parseVal fuel r2 with
          | none => none
          | some (v, r3) =>
            match skipWs r3 with
            | ',' :: t2 => (parseMembers fuel t2).map (fun r => (.ocons (String.mk k) v r.1, r.2))
            | '\x7d' :: t2 => some (.ocons (String.mk k) v .onil, t2)
            | _ => none
        | _ => none
    | _ => none

end

/-- `JSON.parse`: parse one value and require only whitespace after
it. -/
def parseJson (s : String) : Option JsVal :=
  match parseVal (s.length + 1) s.data with
  | some (v, rest) => if (skipWs rest).isEmpty then some v else none
  | none => none

mutual

/-- `JSON.stringify(v, null, 2)` over the reference environment `env`:
dereferencing a `vref` whose id is already open (an ancestor in the
traversal) models the `TypeError` thrown on circular structures
(`none`); dangling references also yield `none`.  The fuel bounds the
call depth and is chosen large enough in `stringifyJS` not to run out
before natural termination or cycle detection. -/
def stringifyV (env : List JsVal) : Nat → List Nat → Nat → JsVal → Option (List Char)
  | 0, _, _, _ => none
  | fuel + 1, opens, d, v =>
    match v with
    | .vnull => some "null".data
    | .vbool true => some "true".data
    | .vbool false => some "false".data
    | .vnum n => some (printInt n)
    | .vstr s => some (quoteJSON s)
    | .varr .anil => some "[]".data
    | .varr (.acons x t) =>
      match stringifyV env fuel opens (d + 1) x with
      | none => none
      | some sx =>
        (stringifyRest env fuel opens (d + 1) t).map
          (fun r => '[' :: '\n' :: (indentChars (d + 1) ++ (sx ++ (r ++
            '\n' :: (indentChars d ++ [']'])))))
    | .vobj .onil => some ['\x7b', '\x7d']
    | .vobj (.ocons k v t) =>
      match stringifyV env fuel opens (d + 1) v with
      | none => none
      | some sv =>
        (stringifyMembersRest env fuel opens (d + 1) t).map
          (fun r => '\x7b' :: '\n' :: (indentChars (d + 1) ++ (quoteJSON k ++ ':' :: ' ' ::
            (sv ++ (r ++ '\n' :: (indentChars d ++ ['\x7d']))))))
    | .vref i =>
      if opens.contains i then none
      else
        match env.get? i with
        | none => none
        | some w => stringifyV env fuel (i :: opens) d w

/-- Serialize the array items after the first one; any failing item
fails the whole serialization (exception propagation). -/
def stringifyRest (env : List JsVal) : Nat → List Nat → Nat → JsArr → Option (List Char)
  | 0, _, _, _ => none
  | _ + 1, _, _, .anil => some []
  | fuel + 1, opens, d, .acons y t =>
    match stringifyV env fuel opens d y with
    | none => none
    | some sy =>
      (stringifyRest env fuel opens d t).map
        (fun r => ',' :: '\n' :: (indentChars d ++ (sy ++ r)))

/-- Serialize the object members after the first one; any failing
member fails the whole serialization. -/
def stringifyMembersRest (env : List JsVal) : Nat → List Nat → Nat → JsObj → Option (List Char)
  | 0, _, _, _ => none
  | _ + 1, _, _, .onil => some []
  | fuel + 1, opens, d, .ocons k v t =>
    match stringifyV env fuel opens d v with
    | none => none
    | some sv =>
      (stringifyMembersRest env fuel opens d t).map
        (fun r => ',' :: '\n' :: (indentChars d ++ (quoteJSON k ++ ':' :: ' ' :: (sv ++ r))))

end

mutual

/-- Call-depth bound of `stringifyV` / `parseVal` on `v` (one unit per
call). -/
def jszV : JsVal → Nat
  | .varr .anil => 1
  | .varr (.acons x t) => 2 + jszV x + jszA t
  | .vobj .onil => 1
  | .vobj (.ocons _ v t) => 2 + jszV v + jszO t
  | _ => 1

/-- Call-depth bound for array tails. -/
def jszA : JsArr → Nat
  | .anil => 1
  | .acons x t => 1 + jszV x + jszA t

/-- Call-depth bound for object member tails. -/
def jszO : JsObj → Nat
  | .onil => 1
  | .ocons _ v t => 1 + jszV v + jszO t

end

/-- Total structural size of the reference environment, used to bound
reference hops. -/
def jszEnv (env : List JsVal) : Nat := (env.map jszV).sum + env.length + 1

/-- `JSON.stringify(data, null, 2)` as a string-producing partial
function: `none` models a thrown `TypeError`.  A recursion path
descends through each environment slot at most once (open slots are
rejected as cycles), so the chosen fuel cannot run out before natural
termination or cycle detection. -/
def stringifyJS (env : List JsVal) (data : JsVal) : Option String :=
  (stringifyV env (jszV data + jszEnv env) [] 0 data).map String.mk

/-- `secureReadJSON` (file-security.js lines 170-178): read, then
parse; parse failures map to `Validation`. -/
def secureReadJSON (cwd : String) (perms : Perms) (fs : FS) (filePath : String)
    (maxSize : Nat := 10485760) : Except ErrKind JsVal :=
  match secureReadFile cwd perms fs filePath maxSize with
  | .error e => .error e
  | .ok content =>
    match parseJson content with
    | some v => .ok v
    | none => .error .validation

/-- `secureWriteJSON` (file-security.js lines 183-194): serialize
first — a `JSON.stringify` failure maps to `Validation` before any
file operation — then write atomically. -/
def secureWriteJSON (cwd : String) (perms : Perms) (inject : WriteFailure)
    (partialContent : String) (fs : FS) (filePath : String) (env : List JsVal) (data : JsVal)
    (tmpSuffix : String) : WriteResult :=
  match stringifyJS env data with
  | none => ⟨.error .validation, fs, [fs]⟩
  | some content => secureWriteFile cwd perms inject partialContent fs filePath content tmpSuffix

/-- Occurrence of a value among array items. -/
def aMem (x : JsVal) : JsArr → Prop
  | .anil => False
  | .acons y t => x = y ∨ aMem x t

/-- Occurrence of a value among object member values. -/
def oMemVal (x : JsVal) : JsObj → Prop
  | .onil => False
  | .ocons _ w t => x = w ∨ oMemVal x t

/-- `v` reaches, possibly through array elements, object members and
reference hops, a reference to environment slot `i`. -/
inductive Reaches (env : List JsVal) : JsVal → Nat → Prop where
  | here (i : Nat) : Reaches env (.vref i) i
  | inArr {x : JsVal} {xs : JsArr} {i : Nat} :
      aMem x xs → Reaches env x i → Reaches env (.varr xs) i
  | inObj {x : JsVal} {fs : JsObj} {i : Nat} :
      oMemVal x fs → Reaches env x i → Reaches env (.vobj fs) i
  | hop {j : Nat} {w : JsVal} {i : Nat} :
      env.get? j = some w → Reaches env w i → Reaches env (.vref j) i

/-- The object graph rooted at `v` is cyclic: some reachable
environment slot reaches itself. -/
def CyclicFrom (env : List JsVal) (v : JsVal) : Prop :=
  ∃ i w, Reaches env v i ∧ env.get? i = some w ∧ Reaches env w i

/-! ## `init` command (src/commands/init.js) -/

/-- Index of the first occurrence of `pat` in `s`
(JavaScript `String.prototype.indexOf`, assuming an occurrence
exists). -/
def indexOfSub (s pat : String) : Nat :=
  let rec go : List Char → Nat → Nat
    | [], acc => acc
    | c :: t, acc =>
      if List.isPrefixOf pat.data (c :: t) then acc else go t (acc + 1)
  go s.data 0

/-- JavaScript `String.prototype.trim` (ASCII whitespace). -/
def jsTrim (s : String) : String :=
  String.mk (((s.data.dropWhile isJsonWs).reverse.dropWhile isJsonWs).reverse)

/-- First `n` characters (JavaScript `String.prototype.substring(0, n)`). -/
def strTake (s : String) (n : Nat) : String := String.mk (s.data.take n)

/-- `getTargetFilename` (src/utils/cli-detector.js): `CLAUDE.md` for
the claude CLI, `GEMINI.md` for gemini. -/
def getTargetFilename (cliType : String) : String :=
  if cliType = "claude" then "CLAUDE.md" else "GEMINI.md"

/-- The Guardian marker line checked for and written by `initCommand`. -/
def guardianMarker : String := "## 🛡️ GUARDIAN MODE ACTIVE"

/-- The `.proguardian` marker record written by `initCommand`
(lines 177-184): field order as in the object literal. -/
def markerRecord (nowISO cliType targetFilename : String) (enhanced : Bool) : JsVal :=
  .vobj (.ocons "version" (.vstr "0.1.0") (.ocons "initialized" (.vstr nowISO)
    (.ocons "mode" (.vstr "guardian") (.ocons "cliType" (.vstr cliType)
      (.ocons "targetFile" (.vstr targetFilename)
        (.ocons "enhanced" (.vbool enhanced) .onil))))))

/-- Outcome of a run of `initCommand`: `.ok` for a normal return
(including the informational early returns), `.error` when
`handleError` would be reached. -/
structure InitResult where
  res : Except ErrKind Unit
  fs : FS

/-- The final step of `initCommand` (lines 175-186): validate the
`.proguardian` path, then persist the marker record whose `enhanced`
field is `securePathExists(targetPath)` evaluated on the
post-write filesystem. -/
def writeMarkerStep (cwd : String) (perms : Perms) (fs : FS)
    (baseDir cliType targetFilename targetPath nowISO tmp2 : String) : InitResult :=
  match validateSafePath cwd baseDir ".proguardian" with
  | .error e => ⟨.error e, fs⟩
  | .ok markerPath =>
    let enhanced := securePathExists cwd fs targetPath
    let w := secureWriteJSON cwd perms .complete "" fs markerPath []
      (markerRecord nowISO cliType targetFilename enhanced) tmp2
    match w.res with
    | .error e => ⟨.error e, w.fs⟩
    | .ok _ => ⟨.ok (), w.fs⟩

/-- `initCommand` (src/commands/init.js).  Parameters model its
execution context: `cliType` is the result of `determineCLI` (`init`
returns early when it is absent), `template` the content of the
bundled template file read outside the validated working tree (`none`
models a missing template, which throws), `nowISO` the
`new Date().toISOString()` value, and `tmp1`/`tmp2` the random
suffixes of the two atomic writes. -/
def initCommand (cwd : String) (perms : Perms) (fs : FS) (force : Bool)
    (pathOpt baseDirOpt : Option String) (cliType : String)
    (template : Option String) (nowISO tmp1 tmp2 : String) : InitResult :=
  let targetFilename := pathOpt.getD (getTargetFilename cliType)
  let baseDir := baseDirOpt.getD cwd
  match validateSafePath cwd baseDir targetFilename with
  | .error e => ⟨.error e, fs⟩
  | .ok targetPath =>
    if securePathExists cwd fs targetPath then
      match secureReadFile cwd perms fs targetPath (5 * 1024 * 1024) with
      | .error e => ⟨.error e, fs⟩
      | .ok existing0 =>
        let already := strContains existing0 guardianMarker
        if already ∧ ¬force then ⟨.ok (), fs⟩
        else
          let existing :=
            if already then jsTrim (strTake existing0 (indexOfSub existing0 guardianMarker))
            else existing0
          match template with
          | none => ⟨.error .io, fs⟩
          | some guardianContent =>
            let enhancedContent :=
              existing ++ "\n\n" ++ guardianMarker ++ "\n\n" ++ guardianContent
            let w := secureWriteFile cwd perms .complete "" fs targetPath enhancedContent tmp1
            match w.res with
            | .error e => ⟨.error e, w.fs⟩
            | .ok _ =>
              writeMarkerStep cwd perms w.fs baseDir cliType targetFilename targetPath nowISO tmp2
    else
      if ¬force then ⟨.ok (), fs⟩
      else
        match template with
        | none => ⟨.error .io, fs⟩
        | some guardianContent =>
          let fullContent := guardianMarker ++ "\n\n" ++ guardianContent
          let w := secureWriteFile cwd perms .complete "" fs targetPath fullContent tmp1
          match w.res with
          | .error e => ⟨.error e, w.fs⟩
          | .ok _ =>
            writeMarkerStep cwd perms w.fs baseDir cliType targetFilename targetPath nowISO tmp2

/-- The head of `l` (if any) is not a decimal digit, so that a decimal
numeral directly followed by `l` parses unambiguously. -/
def numOk (l : List Char) : Prop :=
  ∀ c, l.head? = some c → c.isDigit = false

/-- Every character is JSON whitespace. -/
def wsOnly (l : List Char) : Prop := ∀ c ∈ l, isJsonWs c = true

/-! # Theorems -/

/-! ## Filesystem lemmas -/

theorem fsFind_erase_self (fs : FS) (p : String) : fsFind (fsErase fs p) p = none := by
  induction fs with
  | nil => rfl
  | cons a t ih =>
    rcases a with ⟨q, c⟩
    by_cases hq : q = p
    · simpa [fsErase, hq] using ih
    · simpa [fsErase, fsFind, hq] using ih

theorem fsFind_insert_self (fs : FS) (p c : String) : fsFind (fsInsert fs p c) p = some c := by
  simp [fsFind, fsInsert]

theorem fsFind_erase_ne (fs : FS) (p q : String) (h : q ≠ p) :
    fsFind (fsErase fs p) q = fsFind fs q := by
  induction fs with
  | nil => rfl
  | cons a t ih =>
    rcases a with ⟨r, c⟩
    have hpq : ¬ p = q := fun hh => h hh.symm
    by_cases hr : r = p
    · simpa [fsErase, fsFind, hr, hpq] using ih
    · by_cases hrq : r = q
      · simp [fsErase, fsFind, hr, hrq, h]
      · simpa [fsErase, fsFind, hr, hrq] using ih

theorem fsFind_insert_ne (fs : FS) (p q c : String) (h : q ≠ p) :
    fsFind (fsInsert fs p c) q = fsFind fs q := by
  have hpq : ¬ p = q := fun hh => h hh.symm
  simp only [fsInsert, fsFind, hpq, if_false]
  exact fsFind_erase_ne fs p q h

theorem tmpPath_ne (sp sfx : String) : sp ++ ".tmp." ++ sfx ≠ sp := by
  intro h
  have := congrArg String.length h
  simp only [String.length_append] at this
  have h5 : ".tmp.".length = 5 := rfl
  omega

/-! ## Character, numeral and whitespace lemmas -/

theorem ne_of_isDigit (c x : Char) (hc : c.isDigit = true) (hx : x.isDigit = false) : c ≠ x :=
  fun h => by subst h; rw [hc] at hx; cases hx

theorem isJsonWs_false_of_isDigit (c : Char) (hc : c.isDigit = true) : isJsonWs c = false := by
  unfold isJsonWs
  simp [ne_of_isDigit c ' ' hc (by decide), ne_of_isDigit c '\t' hc (by decide),
    ne_of_isDigit c '\n' hc (by decide), ne_of_isDigit c '\x0d' hc (by decide)]

theorem digitChar_isDigit (d : Nat) : (digitChar d).isDigit = true := by
  unfold digitChar
  repeat' split
  all_goals decide

theorem digitVal_digitChar (d : Nat) (h : d < 10) : (digitChar d).toNat - 48 = d := by
  interval_cases d <;> decide

theorem natDigitsRev_zero (fuel : Nat) : natDigitsRev fuel 0 = [] := by
  cases fuel <;> simp [natDigitsRev]

theorem natDigitsRev_all_digits (fuel : Nat) :
    ∀ n, ∀ c ∈ natDigitsRev fuel n, c.isDigit = true := by
  induction fuel with
  | zero => intro n c h; cases h
  | succ fuel ih =>
    intro n c h
    unfold natDigitsRev at h
    by_cases hn : n = 0
    · simp [hn] at h
    · rw [if_neg hn] at h
      rcases List.mem_cons.mp h with rfl | h2
      · exact digitChar_isDigit _
      · exact ih _ c h2

theorem foldl_parse_natDigitsRev (fuel : Nat) :
    ∀ n acc, n ≠ 0 → n ≤ fuel →
      List.foldl (fun a c => 10 * a + (c.toNat - 48)) acc ((natDigitsRev fuel n).reverse)
        = acc * 10 ^ (natDigitsRev fuel n).length + n := by
  induction fuel with
  | zero => intro n _ hn hf; omega
  | succ fuel ih =>
    intro n acc hn hf
    unfold natDigitsRev
    rw [if_neg hn, List.reverse_cons, List.foldl_append]
    by_cases h10 : n / 10 = 0
    · have hlt : n < 10 := by
        rcases Nat.lt_or_ge n 10 with h | h
        · exact h
        · exact absurd h10 (by
            have : 1 ≤ n / 10 := (Nat.le_div_iff_mul_le (by norm_num)).mpr (by omega)
            omega)
      rw [h10, natDigitsRev_zero]
      simp only [List.reverse_nil, List.foldl_nil, List.foldl_cons, List.length_nil,
        List.length_cons]
      rw [digitVal_digitChar _ (Nat.mod_lt _ (by norm_num))]
      have : n % 10 = n := Nat.mod_eq_of_lt hlt
      simp [this]
      omega
    · have hdivle : n / 10 ≤ fuel := by
        have h1 : n / 10 < n := Nat.div_lt_self (Nat.pos_of_ne_zero hn) (by norm_num)
        omega
      rw [ih (n / 10) acc h10 hdivle]
      simp only [List.foldl_cons, List.foldl_nil, List.length_cons]
      rw [digitVal_digitChar _ (Nat.mod_lt _ (by norm_num))]
      have hmod := Nat.div_add_mod n 10
      rw [pow_succ]
      set M := acc * 10 ^ (natDigitsRev fuel (n / 10)).length with hM
      rw [← mul_assoc]
      omega

theorem printNat_ne_nil (n : Nat) : printNat n ≠ [] := by
  unfold printNat
  by_cases h : n = 0
  · simp [h]
  · rw [if_neg h]
    intro hrev
    rw [List.reverse_eq_nil_iff] at hrev
    cases n with
    | zero => exact h rfl
    | succ m =>
      unfold natDigitsRev at hrev
      rw [if_neg h] at hrev
      cases hrev

theorem printNat_all_digits (n : Nat) : ∀ c ∈ printNat n, c.isDigit = true := by
  unfold printNat
  by_cases h : n = 0
  · simp [h]
  · rw [if_neg h]
    intro c hc
    exact natDigitsRev_all_digits n n c (List.mem_reverse.mp hc)

theorem parseNatChars_printNat (n : Nat) : parseNatChars (printNat n) = n := by
  unfold printNat parseNatChars
  by_cases h : n = 0
  · simp [h]
  · rw [if_neg h, foldl_parse_natDigitsRev n n 0 h le_rfl]
    simp

theorem takeWhile_append_all {p : Char → Bool} (xs rest : List Char)
    (hx : ∀ c ∈ xs, p c = true) (hr : ∀ c, rest.head? = some c → p c = false) :
    (xs ++ rest).takeWhile p = xs := by
  induction xs with
  | nil =>
    cases rest with
    | nil => rfl
    | cons r t => simp [List.takeWhile_cons, hr r rfl]
  | cons a t ih =>
    simp only [List.cons_append, List.takeWhile_cons, hx a (by simp), if_true]
    simp [ih (fun c hc => hx c (by simp [hc]))]

theorem dropWhile_append_all {p : Char → Bool} (xs rest : List Char)
    (hx : ∀ c ∈ xs, p c = true) (hr : ∀ c, rest.head? = some c → p c = false) :
    (xs ++ rest).dropWhile p = rest := by
  induction xs with
  | nil =>
    cases rest with
    | nil => rfl
    | cons r t => simp [List.dropWhile_cons, hr r rfl]
  | cons a t ih =>
    simp only [List.cons_append, List.dropWhile_cons, hx a (by simp), if_true]
    exact ih (fun c hc => hx c (by simp [hc]))

theorem wsOnly_nil : wsOnly [] := fun c h => absurd h (List.not_mem_nil c)

theorem wsOnly_cons (c : Char) (l : List Char) (hc : isJsonWs c = true) (hl : wsOnly l) :
    wsOnly (c :: l) := by
  intro x hx
  rcases List.mem_cons.mp hx with rfl | h
  · exact hc
  · exact hl x h

theorem wsOnly_append (a b : List Char) (ha : wsOnly a) (hb : wsOnly b) : wsOnly (a ++ b) := by
  intro x hx
  rcases List.mem_append.mp hx with h | h
  · exact ha x h
  · exact hb x h

theorem wsOnly_indentChars (d : Nat) : wsOnly (indentChars d) := by
  intro c hc
  unfold indentChars at hc
  rw [List.mem_replicate] at hc
  rw [hc.2]
  rfl

theorem skipWs_append (ws l : List Char) (h : wsOnly ws) : skipWs (ws ++ l) = skipWs l := by
  induction ws with
  | nil => rfl
  | cons a t ih =>
    simp only [List.cons_append, skipWs, List.dropWhile_cons, h a (by simp), if_true]
    exact ih (fun c hc => h c (by simp [hc]))

theorem skipWs_cons_false (c : Char) (l : List Char) (h : isJsonWs c = false) :
    skipWs (c :: l) = c :: l := by
  simp [skipWs, List.dropWhile_cons, h]

theorem numOk_nil : numOk [] := fun c h => by cases h

theorem numOk_cons (c : Char) (l : List Char) (h : c.isDigit = false) : numOk (c :: l) := by
  intro x hx
  simp only [List.head?_cons, Option.some.injEq] at hx
  rw [← hx]
  exact h

theorem isHexDigit_hexDigitChar (d : Nat) (h : d < 16) : isHexDigit (hexDigitChar d) = true := by
  interval_cases d <;> decide

theorem hexVal_hexDigitChar (d : Nat) (h : d < 16) : hexVal (hexDigitChar d) = d := by
  interval_cases d <;> decide

theorem escapeChar_length_pos (c : Char) : 1 ≤ (escapeChar c).length := by
  unfold escapeChar
  repeat' split
  all_goals simp

theorem length_le_flatMap_escape (cs : List Char) :
    cs.length ≤ (cs.flatMap escapeChar).length := by
  induction cs with
  | nil => simp
  | cons c t ih =>
    rw [List.flatMap_cons, List.length_append, List.length_cons]
    have := escapeChar_length_pos c
    omega

theorem parseStringBodyF_quote (cs : List Char) :
    ∀ fuel rest, cs.length < fuel →
      parseStringBodyF fuel (cs.flatMap escapeChar ++ '"' :: rest) = some (cs, rest) := by
  induction cs with
  | nil =>
    intro fuel rest hf
    match fuel, hf with
    | fuel + 1, _ => simp [parseStringBodyF]
  | cons c t ih =>
    intro fuel rest hf
    match fuel, hf with
    | fuel + 1, hf =>
      have iht := ih fuel rest (by simp only [List.length_cons] at hf; omega)
      rw [List.flatMap_cons, List.append_assoc]
      by_cases h1 : c = '"'
      · subst h1
        rw [show escapeChar '"' = ['\\', '"'] from rfl]
        simp [parseStringBodyF, iht]
      · by_cases h2 : c = '\\'
        · subst h2
          rw [show escapeChar '\\' = ['\\', '\\'] from rfl]
          simp [parseStringBodyF, iht]
        · by_cases h3 : c = '\x08'
          · subst h3
            rw [show escapeChar '\x08' = ['\\', 'b'] from rfl]
            simp [parseStringBodyF, iht]
          · by_cases h4 : c = '\x0c'
            · subst h4
              rw [show escapeChar '\x0c' = ['\\', 'f'] from rfl]
              simp [parseStringBodyF, iht]
            · by_cases h5 : c = '\n'
              · subst h5
                rw [show escapeChar '\n' = ['\\', 'n'] from rfl]
                simp [parseStringBodyF, iht]
              · by_cases h6 : c = '\x0d'
                · subst h6
                  rw [show escapeChar '\x0d' = ['\\', 'r'] from rfl]
                  simp [parseStringBodyF, iht]
                · by_cases h7 : c = '\t'
                  · subst h7
                    rw [show escapeChar '\t' = ['\\', 't'] from rfl]
                    simp [parseStringBodyF, iht]
                  · by_cases h8 : c.toNat < 32
                    · have hesc : escapeChar c = ['\\', 'u', '0', '0',
                          hexDigitChar (c.toNat / 16), hexDigitChar (c.toNat % 16)] := by
                        unfold escapeChar
                        rw [if_neg h1, if_neg h2, if_neg h3, if_neg h4, if_neg h5,
                          if_neg h6, if_neg h7, if_pos h8]
                      have hd : c.toNat / 16 < 16 := by omega
                      have hm : c.toNat % 16 < 16 := Nat.mod_lt _ (by norm_num)
                      have hval : 4096 * hexVal '0' + 256 * hexVal '0'
                          + 16 * hexVal (hexDigitChar (c.toNat / 16))
                          + hexVal (hexDigitChar (c.toNat % 16)) = c.toNat := by
                        rw [show hexVal '0' = 0 from rfl, hexVal_hexDigitChar _ hd,
                          hexVal_hexDigitChar _ hm]
                        omega
                      rw [hesc]
                      simp [parseStringBodyF, isHexDigit_hexDigitChar _ hd,
                        isHexDigit_hexDigitChar _ hm, hval, Char.ofNat_toNat, iht,
                        show isHexDigit '0' = true from rfl]
                    · have hesc : escapeChar c = [c] := by
                        unfold escapeChar
                        rw [if_neg h1, if_neg h2, if_neg h3, if_neg h4, if_neg h5,
                          if_neg h6, if_neg h7, if_neg h8]
                      rw [hesc]
                      simp [parseStringBodyF, h1, h2, iht]

theorem parseStringBody_quote (cs rest : List Char) :
    parseStringBody (cs.flatMap escapeChar ++ '"' :: rest) = some (cs, rest) := by
  unfold parseStringBody
  apply parseStringBodyF_quote
  have h1 := length_le_flatMap_escape cs
  simp only [List.length_append, List.length_cons]
  omega

theorem stringMk_data (s : String) : String.mk s.data = s := rfl

theorem skipWs_cons_true (c : Char) (l : List Char) (h : isJsonWs c = true) :
    skipWs (c :: l) = skipWs l := by
  simp [skipWs, List.dropWhile_cons, h]

theorem jszV_pos (v : JsVal) : 1 ≤ jszV v := by
  cases v with
  | varr a => cases a <;> simp [jszV] <;> omega
  | vobj o => cases o <;> simp [jszV] <;> omega
  | _ => simp [jszV]

theorem jszA_pos (a : JsArr) : 1 ≤ jszA a := by
  cases a <;> simp [jszA] <;> omega

theorem jszO_pos (o : JsObj) : 1 ≤ jszO o := by
  cases o <;> simp [jszO] <;> omega

theorem printVal_head (d : Nat) (v : JsVal) :
    ∃ c cs, printVal d v = c :: cs ∧ isJsonWs c = false ∧ c ≠ ']' ∧ c ≠ '\x7d' := by
  cases v with
  | vnull => exact ⟨'n', _, rfl, by decide, by decide, by decide⟩
  | vbool b => cases b
               · exact ⟨'f', _, rfl, by decide, by decide, by decide⟩
               · exact ⟨'t', _, rfl, by decide, by decide, by decide⟩
  | vnum n =>
    by_cases hn : n < 0
    · exact ⟨'-', printNat (-n).toNat, by simp [printVal, printInt, hn], by decide, by decide,
        by decide⟩
    · obtain ⟨c, cs, hcs⟩ := List.exists_cons_of_ne_nil (printNat_ne_nil n.toNat)
      have hdig : c.isDigit = true := printNat_all_digits _ c (by rw [hcs]; simp)
      refine ⟨c, cs, ?_, isJsonWs_false_of_isDigit c hdig,
        ne_of_isDigit c ']' hdig (by decide), ne_of_isDigit c '\x7d' hdig (by decide)⟩
      simp [printVal, printInt, hn, hcs]
  | vstr s => exact ⟨'"', _, rfl, by decide, by decide, by decide⟩
  | varr a =>
    cases a
    · exact ⟨'[', _, rfl, by decide, by decide, by decide⟩
    · exact ⟨'[', _, rfl, by decide, by decide, by decide⟩
  | vobj o =>
    cases o
    · exact ⟨'\x7b', _, rfl, by decide, by decide, by decide⟩
    · exact ⟨'\x7b', _, rfl, by decide, by decide, by decide⟩
  | vref i => exact ⟨'n', _, rfl, by decide, by decide, by decide⟩

/-! ## C1: atomicity of `secureWriteFile` -/

theorem secureWriteFile_run (cwd : String) (perms : Perms) (inject : WriteFailure)
    (pc : String) (fs : FS) (filePath content sfx safePath : String)
    (hval : validateSafePath cwd cwd filePath = .ok safePath)
    (hdir : perms.canWrite (pathDirname safePath) = true)
    (hfile : (fsFind fs safePath).isSome → perms.canWrite safePath = true) :
    secureWriteFile cwd perms inject pc fs filePath content sfx =
      match inject with
      | .tmpWriteFails =>
        ⟨.error .io, fsErase (fsInsert fs (safePath ++ ".tmp." ++ sfx) pc)
            (safePath ++ ".tmp." ++ sfx),
          [fs, fsInsert fs (safePath ++ ".tmp." ++ sfx) pc,
            fsErase (fsInsert fs (safePath ++ ".tmp." ++ sfx) pc)
              (safePath ++ ".tmp." ++ sfx)]⟩
      | .renameFails =>
        ⟨.error .io, fsErase (fsInsert fs (safePath ++ ".tmp." ++ sfx) content)
            (safePath ++ ".tmp." ++ sfx),
          [fs, fsInsert fs (safePath ++ ".tmp." ++ sfx) content,
            fsErase (fsInsert fs (safePath ++ ".tmp." ++ sfx) content)
              (safePath ++ ".tmp." ++ sfx)]⟩
      | .complete =>
        ⟨.ok (), fsInsert (fsErase (fsInsert fs (safePath ++ ".tmp." ++ sfx) content)
            (safePath ++ ".tmp." ++ sfx)) safePath content,
          [fs, fsInsert fs (safePath ++ ".tmp." ++ sfx) content,
            fsInsert (fsErase (fsInsert fs (safePath ++ ".tmp." ++ sfx) content)
              (safePath ++ ".tmp." ++ sfx)) safePath content]⟩ := by
  have h2 : ¬ ((fsFind fs safePath).isSome = true ∧ ¬ perms.canWrite safePath = true) := by
    rintro ⟨hex, hw⟩
    exact hw (hfile hex)
  have h1 : ¬ ¬ perms.canWrite (pathDirname safePath) = true := by simp [hdir]
  unfold secureWriteFile
  simp only [hval]
  rw [if_neg h1, if_neg h2]

/-- C1.  Atomicity of `secureWriteFile`: under failure injection after
the temporary file is created but before the rename completes, the
call errors, the target's content is unchanged, the
`<target>.tmp.<suffix>` file is gone, and no other path changed; on
success every observable intermediate state maps the target either to
its old content or to the complete new content, and the final state
holds the new content. -/
theorem secureWriteFile_atomic (cwd : String) (perms : Perms) (fs : FS)
    (filePath content tmpSuffix partialContent safePath : String)
    (hval : validateSafePath cwd cwd filePath = .ok safePath)
    (hdir : perms.canWrite (pathDirname safePath) = true)
    (hfile : (fsFind fs safePath).isSome → perms.canWrite safePath = true) :
    (∀ inject, inject ≠ WriteFailure.complete →
      ((secureWriteFile cwd perms inject partialContent fs filePath content tmpSuffix).res
          = .error .io ∧
        fsFind (secureWriteFile cwd perms inject partialContent fs filePath content tmpSuffix).fs
          safePath = fsFind fs safePath ∧
        fsFind (secureWriteFile cwd perms inject partialContent fs filePath content tmpSuffix).fs
          (safePath ++ ".tmp." ++ tmpSuffix) = none ∧
        (∀ p, p ≠ safePath ++ ".tmp." ++ tmpSuffix →
          fsFind (secureWriteFile cwd perms inject partialContent fs filePath content
            tmpSuffix).fs p = fsFind fs p))) ∧
    ((secureWriteFile cwd perms .complete partialContent fs filePath content tmpSuffix).res
        = .ok () ∧
      fsFind (secureWriteFile cwd perms .complete partialContent fs filePath content
        tmpSuffix).fs safePath = some content ∧
      (∀ s ∈ (secureWriteFile cwd perms .complete partialContent fs filePath content
          tmpSuffix).trace,
        fsFind s safePath = fsFind fs safePath ∨ fsFind s safePath = some content)) := by
  have hne : safePath ≠ safePath ++ ".tmp." ++ tmpSuffix := fun h => tmpPath_ne _ _ h.symm
  constructor
  · intro inject hinj
    rw [secureWriteFile_run cwd perms inject partialContent fs filePath content tmpSuffix
      safePath hval hdir hfile]
    cases inject with
    | complete => exact absurd rfl hinj
    | tmpWriteFails =>
      refine ⟨rfl, ?_, fsFind_erase_self _ _, ?_⟩
      · rw [fsFind_erase_ne _ _ _ hne, fsFind_insert_ne _ _ _ _ hne]
      · intro p hp
        rw [fsFind_erase_ne _ _ _ hp, fsFind_insert_ne _ _ _ _ hp]
    | renameFails =>
      refine ⟨rfl, ?_, fsFind_erase_self _ _, ?_⟩
      · rw [fsFind_erase_ne _ _ _ hne, fsFind_insert_ne _ _ _ _ hne]
      · intro p hp
        rw [fsFind_erase_ne _ _ _ hp, fsFind_insert_ne _ _ _ _ hp]
  · rw [secureWriteFile_run cwd perms .complete partialContent fs filePath content tmpSuffix
      safePath hval hdir hfile]
    refine ⟨rfl, fsFind_insert_self _ _ _, ?_⟩
    intro s hs
    simp only [List.mem_cons, List.not_mem_nil, or_false] at hs
    rcases hs with h | h | h
    · subst h; exact Or.inl rfl
    · subst h
      exact Or.inl (fsFind_insert_ne _ _ _ _ hne)
    · subst h
      exact Or.inr (fsFind_insert_self _ _ _)

/-- Witness for C1 at a concrete write. -/
theorem secureWriteFile_atomic_witness :
    validateSafePath "/p" "/p" "t.txt" = .ok "/p/t.txt" ∧
    ((secureWriteFile "/p" permsAll .renameFails "" [("/p/t.txt", "old")] "t.txt" "new"
        "ab").res = .error .io ∧
      fsFind (secureWriteFile "/p" permsAll .renameFails "" [("/p/t.txt", "old")] "t.txt"
        "new" "ab").fs "/p/t.txt" = fsFind [("/p/t.txt", "old")] "/p/t.txt") ∧
    ((secureWriteFile "/p" permsAll .complete "" [("/p/t.txt", "old")] "t.txt" "new"
        "ab").res = .ok ()) := by
  have h := secureWriteFile_atomic "/p" permsAll [("/p/t.txt", "old")] "t.txt" "new" "ab" ""
    "/p/t.txt" rfl rfl (fun _ => rfl)
  exact ⟨rfl, ⟨(h.1 .renameFails (by decide)).1, (h.1 .renameFails (by decide)).2.1⟩,
    h.2.1⟩

/-! ## C2 and C3: `validateSafePath` -/

/-- C2 (amended).  The blacklist scan of `validateSafePath` runs on
`path.normalize(targetPath)`, not on the original input: whenever the
normalized input contains one of the blacklisted substrings, validation
fails with `PathTraversal`, for every base directory and working
directory. -/
theorem validateSafePath_blacklist (cwd basePath targetPath : String)
    (h : suspiciousPatterns.any (fun pat => strContains (pathNormalize targetPath) pat)
      = true) :
    validateSafePath cwd basePath targetPath = .error .pathTraversal := by
  by_cases h0 : targetPath = ""
  · subst h0
    exact absurd h (by decide)
  · simp only [validateSafePath, h0, if_false]
    by_cases hs : strStartsWith (pathResolve cwd [basePath, targetPath])
        (pathResolve cwd [basePath]) = true
    · simp [hs, h]
    · simp [hs]

/-- Witness for C2's amended theorem at a concrete blacklisted input. -/
theorem validateSafePath_blacklist_witness :
    suspiciousPatterns.any (fun pat => strContains (pathNormalize "~x") pat) = true ∧
    validateSafePath "/" "/b" "~x" = .error .pathTraversal :=
  ⟨rfl, validateSafePath_blacklist "/" "/b" "~x" rfl⟩

/-- C2 counterexample.  `"a/../b"` contains the blacklisted substring
`".."`, yet `validateSafePath` accepts it (for base `"/base"`): the
scan happens after `path.normalize` has resolved the `..` away. -/
theorem validateSafePath_dotdot_accepted :
    strContains "a/../b" ".." = true ∧
    validateSafePath "/" "/base" "a/../b" = .ok "/base/b" := ⟨rfl, rfl⟩

/-- C3 (code evaluation).  The containment check is a plain
`String.prototype.startsWith` on the resolved paths, with no separator
termination: the target resolving to `"/basefoo"` with base `"/base"`
is accepted, although it is not the base itself and not below
`"/base/"`. -/
theorem validateSafePath_basefoo_accepted :
    validateSafePath "/" "/base" "/basefoo" = .ok "/basefoo" ∧
    strStartsWith "/basefoo" "/base" = true ∧
    strStartsWith "/basefoo" ("/base" ++ "/") = false ∧
    "/basefoo" ≠ "/base" := ⟨rfl, rfl, rfl, by decide⟩

/-! ## C7: `validateCommand` -/

/-- C7.  `validateCommand` rejects with `CommandInjection` every string
containing a dangerous character (`| ; & $ \x60 > < ( ) \x7b \x7d [ ]`) or an
embedded newline or carriage return, and returns every other non-empty
string unchanged. -/
theorem validateCommand_spec (s : String) :
    ((∃ c, c ∈ dangerousChars ∧ s.data.contains c = true) ∨
        strContains s "\n" = true ∨ strContains s "\r" = true →
      validateCommand s = .error .commandInjection) ∧
    (s ≠ "" → (∀ c ∈ dangerousChars, s.data.contains c = false) →
      strContains s "\n" = false → strContains s "\r" = false →
      validateCommand s = .ok s) := by
  constructor
  · intro h
    have hne : ¬ s = "" := by
      rintro rfl
      rcases h with ⟨c, _, hc⟩ | h | h
      · simp [List.contains] at hc
      · exact absurd h (by decide)
      · exact absurd h (by decide)
    unfold validateCommand
    rw [if_neg hne]
    by_cases hnl : strContains s "\n" = true ∨ strContains s "\r" = true
    · rw [if_pos hnl]
    · rw [if_neg hnl]
      rcases h with ⟨c, hcmem, hc⟩ | h | h
      · rw [if_pos (List.any_eq_true.mpr ⟨c, hcmem, hc⟩)]
      · exact absurd (Or.inl h) hnl
      · exact absurd (Or.inr h) hnl
  · intro hne hchars hn hr
    unfold validateCommand
    rw [if_neg hne, if_neg (by simp [hn, hr]), if_neg ?_]
    simp only [List.any_eq_true, not_exists]
    rintro c hcc
    rw [hchars c hcc.1] at hcc
    exact absurd hcc.2 (by simp)

/-- Witness for C7 at a dangerous and a safe command. -/
theorem validateCommand_spec_witness :
    validateCommand "a;b" = .error .commandInjection ∧
    validateCommand "npm test" = .ok "npm test" :=
  ⟨(validateCommand_spec "a;b").1 (Or.inl ⟨';', by decide, by decide⟩),
    (validateCommand_spec "npm test").2 (by decide) (by decide) rfl rfl⟩

/-! ## C8: context-file flag augmentation -/

theorem hasClaudeMd_append_pair (xs : List String) :
    hasClaudeMd (xs ++ ["--context-file", "CLAUDE.md"]) = true := by
  induction xs with
  | nil => rfl
  | cons a t ih =>
    cases t with
    | nil => simp [hasClaudeMd, isCtxFlag]
    | cons b t2 =>
      simp only [List.cons_append] at ih ⊢
      simp [hasClaudeMd, ih]

theorem hasClaudeMd_contains (xs : List String) (h : hasClaudeMd xs = true) :
    xs.contains "--context-file" = true ∨ xs.contains "-c" = true := by
  induction xs with
  | nil => cases h
  | cons a t ih =>
    cases t with
    | nil => cases h
    | cons b t2 =>
      simp only [hasClaudeMd, Bool.or_eq_true, Bool.and_eq_true] at h
      rcases h with ⟨hflag, _⟩ | h2
      · simp only [isCtxFlag, Bool.or_eq_true, decide_eq_true_eq] at hflag
        rcases hflag with rfl | rfl
        · exact Or.inl (by simp)
        · exact Or.inr (by simp)
      · rcases ih h2 with hh | hh
        · exact Or.inl (by simp only [List.contains_cons, hh, Bool.or_true])
        · exact Or.inr (by simp only [List.contains_cons, hh, Bool.or_true])

theorem augmentArgs_not_referenced (xs : List String) (h : hasClaudeMd xs = false) :
    augmentArgs xs = xs ++ ["--context-file", "CLAUDE.md"] := by
  unfold augmentArgs
  by_cases hc : ¬ xs.contains "--context-file" = true ∧ ¬ xs.contains "-c" = true
  · rw [if_pos hc]
  · rw [if_neg hc, if_neg (by simp [h])]

/-- C8.  If no context-file flag is followed by `CLAUDE.md`, the
augmentation appends `--context-file CLAUDE.md` exactly once, and the
augmentation is idempotent. -/
theorem augmentArgs_spec (xs : List String) :
    (hasClaudeMd xs = false → augmentArgs xs = xs ++ ["--context-file", "CLAUDE.md"]) ∧
    augmentArgs (augmentArgs xs) = augmentArgs xs := by
  refine ⟨augmentArgs_not_referenced xs, ?_⟩
  by_cases hm : hasClaudeMd xs = true
  · have hx : augmentArgs xs = xs := by
      unfold augmentArgs
      rw [if_neg ?_, if_pos hm]
      rcases hasClaudeMd_contains xs hm with h | h
      · rintro ⟨hc1, _⟩; exact hc1 h
      · rintro ⟨_, hc2⟩; exact hc2 h
    rw [hx, hx]
  · rw [augmentArgs_not_referenced xs (by simpa using hm)]
    unfold augmentArgs
    rw [if_neg ?_, if_pos (hasClaudeMd_append_pair xs)]
    rintro ⟨hc1, _⟩
    exact hc1 (by simp)

/-- Witness for C8 at a concrete argument list. -/
theorem augmentArgs_spec_witness :
    hasClaudeMd ["ok"] = false ∧
    augmentArgs ["ok"] = ["ok", "--context-file", "CLAUDE.md"] ∧
    augmentArgs (augmentArgs ["ok"]) = augmentArgs ["ok"] :=
  ⟨rfl, (augmentArgs_spec ["ok"]).1 rfl, (augmentArgs_spec ["ok"]).2⟩

/-! ## C4: wrapper argument rejection -/

/-- C4 counterexample.  An argument containing `>` fails the
Command/Argument Sanitizer of section 4.3 (`validateCommand`), yet the
wrapper's supervised-mode scan accepts it and proceeds towards the
spawn: the scan checks only `; | & \x60 $`. -/
theorem wrapper_gt_argument_accepted :
    processArgs ["a>b"] = some ["a>b"] ∧
    validateCommand "a>b" = .error .commandInjection := ⟨rfl, rfl⟩

/-- C4 (amended).  The supervised-mode scan rejects the invocation
(before any spawn) exactly on arguments containing one of `; | & \x60 $`,
and only when they are scanned: an argument list whose every element
is free of those five characters is forwarded unchanged; a list
containing such an argument is rejected provided no context-file flag
precedes it (the value following a context-file flag bypasses the
scan, as the accepted `["--context-file", "x;y"]` shows). -/
theorem processArgs_spec :
    (∀ args : List String, (∀ a ∈ args, wrapperArgBad a = false) →
      processArgs args = some args) ∧
    (∀ args : List String, ∀ a ∈ args, wrapperArgBad a = true →
      (∀ b ∈ args, isCtxFlag b = false) → processArgs args = none) ∧
    processArgs ["--context-file", "x;y"] = some ["--context-file", "x;y"] := by
  refine ⟨?_, ?_, rfl⟩
  · intro args
    induction args using processArgs.induct with
    | case1 => intro _; rfl
    | case2 a rest hbad =>
      intro h
      exact absurd (h a (by simp)) (by simp [hbad])
    | case3 a hbad hflag =>
      intro _
      unfold processArgs
      simp [hbad, hflag]
    | case4 a hbad hflag b rest2 ih =>
      intro h
      have := ih (fun x hx => h x (by simp [hx]))
      unfold processArgs
      simp [hbad, hflag, this]
    | case5 a rest hbad hflag ih =>
      intro h
      have := ih (fun x hx => h x (by simp [hx]))
      unfold processArgs
      simp [hbad, hflag, this]
  · intro args
    induction args with
    | nil => intro a ha; exact absurd ha (by simp)
    | cons x rest ih =>
      intro a ha hbad hflags
      rcases List.mem_cons.mp ha with rfl | hmem
      · unfold processArgs
        simp [hbad]
      · by_cases hxbad : wrapperArgBad x = true
        · unfold processArgs
          simp [hxbad]
        · have hxflag : isCtxFlag x = false := hflags x (by simp)
          have hrec := ih a hmem hbad (fun b hb => hflags b (by simp [hb]))
          unfold processArgs
          simp [hxbad, hxflag, hrec]

/-- Witness for C4's amended theorem. -/
theorem processArgs_spec_witness :
    processArgs ["ok", "fine"] = some ["ok", "fine"] ∧ processArgs ["x;y"] = none :=
  ⟨processArgs_spec.1 ["ok", "fine"] (by decide),
    processArgs_spec.2.1 ["x;y"] "x;y" (by simp) rfl (by decide)⟩

/-! ## C5: error-message redaction -/

/-- C5 counterexample.  A raw message embedding an absolute path, an
email address and an IPv4 literal whose IPv4 occurrence is flanked by
letters: the redaction patterns require word boundaries, so the
constructed `SecurityError` message still contains the literal
`1.2.3.4`. -/
theorem securityError_ipv4_survives :
    strContains "set /etc/passwd for a@b.com at x1.2.3.4y" "/etc/passwd" = true ∧
    strContains "set /etc/passwd for a@b.com at x1.2.3.4y" "a@b.com" = true ∧
    strContains "set /etc/passwd for a@b.com at x1.2.3.4y" "1.2.3.4" = true ∧
    (mkSecurityError "set /etc/passwd for a@b.com at x1.2.3.4y").message
      = "set <path> for <email> at x1.2.3.4y" ∧
    strContains (mkSecurityError "set /etc/passwd for a@b.com at x1.2.3.4y").message
      "1.2.3.4" = true := ⟨rfl, rfl, rfl, rfl, rfl⟩

/-- C5 (amended).  The redaction is applied at construction time, and
for a message embedding an absolute path, an email address and an IPv4
literal as word-bounded tokens of the shapes the redactor recognizes
(shown at a representative message), the displayed message contains
none of the three literal substrings. -/
theorem securityError_redacts_representative :
    (mkSecurityError "Cannot read /etc/passwd for user@example.com at 192.168.1.1").message
      = "Cannot read <path> for <email> at <ip>" ∧
    strContains (mkSecurityError
      "Cannot read /etc/passwd for user@example.com at 192.168.1.1").message
      "/etc/passwd" = false ∧
    strContains (mkSecurityError
      "Cannot read /etc/passwd for user@example.com at 192.168.1.1").message
      "user@example.com" = false ∧
    strContains (mkSecurityError
      "Cannot read /etc/passwd for user@example.com at 192.168.1.1").message
      "192.168.1.1" = false ∧
    (mkSecurityError "Cannot read /etc/passwd for user@example.com at 192.168.1.1").message
      = sanitizeErrorMessage
        "Cannot read /etc/passwd for user@example.com at 192.168.1.1" :=
  ⟨rfl, rfl, rfl, rfl, rfl⟩

/-! ## C10: fixed security-error display text -/

/-- C10.  `PathTraversalError` and `CommandInjectionError` messages are
input-independent fixed strings; the offending input is stored only in
the separate `attemptedPath` / `command` fields. -/
theorem securityError_fixed_messages (p q c1 c2 : String) :
    (mkPathTraversalError p).err.message = "Invalid path: Path traversal attempt detected" ∧
    (mkPathTraversalError p).err.message = (mkPathTraversalError q).err.message ∧
    (mkPathTraversalError p).attemptedPath = p ∧
    (mkCommandInjectionError c1).err.message
      = "Invalid command: Potentially unsafe characters detected" ∧
    (mkCommandInjectionError c1).err.message = (mkCommandInjectionError c2).err.message ∧
    (mkCommandInjectionError c1).command = c1 :=
  ⟨rfl, rfl, rfl, rfl, rfl, rfl⟩

theorem skipWs_idem (l : List Char) : skipWs (skipWs l) = skipWs l := by
  induction l with
  | nil => rfl
  | cons a t ih =>
    by_cases h : isJsonWs a = true
    · rw [skipWs_cons_true _ _ h]; exact ih
    · rw [skipWs_cons_false _ _ (by simpa using h), skipWs_cons_false _ _ (by simpa using h)]

theorem parseVal_skipTo (fuel : Nat) (l T : List Char) (h : skipWs l = T) :
    parseVal (fuel + 1) l = parseVal (fuel + 1) T := by
  have hid : skipWs T = T := by rw [← h]; exact skipWs_idem l
  simp only [parseVal, h, hid]

theorem parseVal_null (fuel : Nat) (T : List Char) :
    parseVal (fuel + 1) ('n' :: 'u' :: 'l' :: 'l' :: T) = some (.vnull, T) := rfl

theorem parseVal_true (fuel : Nat) (T : List Char) :
    parseVal (fuel + 1) ('t' :: 'r' :: 'u' :: 'e' :: T) = some (.vbool true, T) := rfl

theorem parseVal_false (fuel : Nat) (T : List Char) :
    parseVal (fuel + 1) ('f' :: 'a' :: 'l' :: 's' :: 'e' :: T) = some (.vbool false, T) := rfl

theorem parseVal_quote (fuel : Nat) (T : List Char) :
    parseVal (fuel + 1) ('"' :: T) =
      (parseStringBody T).map (fun r => (JsVal.vstr (String.mk r.1), r.2)) := rfl

theorem parseVal_minus (fuel : Nat) (T : List Char) :
    parseVal (fuel + 1) ('-' :: T) =
      (if (T.takeWhile Char.isDigit).isEmpty then none
       else some (JsVal.vnum (-(Int.ofNat (parseNatChars (T.takeWhile Char.isDigit)))),
         T.dropWhile Char.isDigit)) := rfl

theorem parseVal_lbrack (fuel : Nat) (T : List Char) :
    parseVal (fuel + 1) ('[' :: T) =
      (match skipWs T with
       | ']' :: t2 => some (JsVal.varr .anil, t2)
       | _ => (parseElems fuel T).map (fun r => (JsVal.varr r.1, r.2))) := rfl

theorem parseVal_lbrace (fuel : Nat) (T : List Char) :
    parseVal (fuel + 1) ('\x7b' :: T) =
      (match skipWs T with
       | '\x7d' :: t2 => some (JsVal.vobj .onil, t2)
       | _ => (parseMembers fuel T).map (fun r => (JsVal.vobj r.1, r.2))) := rfl

theorem parseVal_digit (fuel : Nat) (c : Char) (T : List Char) (hd : c.isDigit = true) :
    parseVal (fuel + 1) (c :: T) =
      some (JsVal.vnum (Int.ofNat (parseNatChars ((c :: T).takeWhile Char.isDigit))),
        (c :: T).dropWhile Char.isDigit) := by
  have hne : ∀ x : Char, x.isDigit = false → c ≠ x := by
    intro x hx he; rw [he] at hd; rw [hd] at hx; cases hx
  have hskip : skipWs (c :: T) = c :: T :=
    skipWs_cons_false _ _ (isJsonWs_false_of_isDigit _ hd)
  simp only [parseVal, hskip]
  rw [if_neg (hne 'n' (by decide)), if_neg (hne 't' (by decide)), if_neg (hne 'f' (by decide)),
    if_neg (hne '"' (by decide)), if_neg (hne '[' (by decide)), if_neg (hne '\x7b' (by decide)),
    if_neg (hne '-' (by decide)), if_pos hd]

theorem parseElems_step (fuel : Nat) (l : List Char) (v : JsVal) (r1 : List Char)
    (h : parseVal fuel l = some (v, r1)) :
    parseElems (fuel + 1) l =
      (match skipWs r1 with
       | ',' :: t => (parseElems fuel t).map (fun r => (JsArr.acons v r.1, r.2))
       | ']' :: t => some (JsArr.acons v JsArr.anil, t)
       | _ => none) := by
  simp only [parseElems, h]

theorem parseMembers_step (fuel : Nat) (l T : List Char) (k : List Char) (r1 r2 : List Char)
    (v : JsVal) (r3 : List Char)
    (h1 : skipWs l = '"' :: T) (h2 : parseStringBody T = some (k, r1))
    (h3 : skipWs r1 = ':' :: r2) (h4 : parseVal fuel r2 = some (v, r3)) :
    parseMembers (fuel + 1) l =
      (match skipWs r3 with
       | ',' :: t2 => (parseMembers fuel t2).map (fun r => (JsObj.ocons (String.mk k) v r.1, r.2))
       | '\x7d' :: t2 => some (JsObj.ocons (String.mk k) v JsObj.onil, t2)
       | _ => none) := by
  simp only [parseMembers, h1, h2, h3, h4]

theorem elemsGuard_comma (fuel : Nat) (v : JsVal) (r1 T2 : List Char) (h : skipWs r1 = ',' :: T2) :
    (match skipWs r1 with
     | ',' :: t => (parseElems fuel t).map (fun r => (JsArr.acons v r.1, r.2))
     | ']' :: t => some (JsArr.acons v JsArr.anil, t)
     | _ => none) = (parseElems fuel T2).map (fun r => (JsArr.acons v r.1, r.2)) := by
  rw [h]
  rfl

theorem elemsGuard_close (fuel : Nat) (v : JsVal) (r1 T2 : List Char) (h : skipWs r1 = ']' :: T2) :
    (match skipWs r1 with
     | ',' :: t => (parseElems fuel t).map (fun r => (JsArr.acons v r.1, r.2))
     | ']' :: t => some (JsArr.acons v JsArr.anil, t)
     | _ => none) = some (JsArr.acons v JsArr.anil, T2) := by
  rw [h]
  rfl

theorem memGuard_comma (fuel : Nat) (k : List Char) (v : JsVal) (r3 T2 : List Char)
    (h : skipWs r3 = ',' :: T2) :
    (match skipWs r3 with
     | ',' :: t2 => (parseMembers fuel t2).map (fun r => (JsObj.ocons (String.mk k) v r.1, r.2))
     | '\x7d' :: t2 => some (JsObj.ocons (String.mk k) v JsObj.onil, t2)
     | _ => none) =
    (parseMembers fuel T2).map (fun r => (JsObj.ocons (String.mk k) v r.1, r.2)) := by
  rw [h]
  rfl

theorem memGuard_close (fuel : Nat) (k : List Char) (v : JsVal) (r3 T2 : List Char)
    (h : skipWs r3 = '\x7d' :: T2) :
    (match skipWs r3 with
     | ',' :: t2 => (parseMembers fuel t2).map (fun r => (JsObj.ocons (String.mk k) v r.1, r.2))
     | '\x7d' :: t2 => some (JsObj.ocons (String.mk k) v JsObj.onil, t2)
     | _ => none) = some (JsObj.ocons (String.mk k) v JsObj.onil, T2) := by
  rw [h]
  rfl

theorem arrGuard_open (fuel : Nat) (T : List Char) (c0 : Char) (R : List Char)
    (h : skipWs T = c0 :: R) (hne : c0 ≠ ']') :
    (match skipWs T with
     | ']' :: t2 => some (JsVal.varr .anil, t2)
     | _ => (parseElems fuel T).map (fun r => (JsVal.varr r.1, r.2))) =
    (parseElems fuel T).map (fun r => (JsVal.varr r.1, r.2)) := by
  split
  · rename_i t2 heq
    rw [h] at heq
    injection heq with h1 _
    exact absurd h1 hne
  · rfl

theorem arrGuard_close (fuel : Nat) (T : List Char) (t2 : List Char) (h : skipWs T = ']' :: t2) :
    (match skipWs T with
     | ']' :: t2 => some (JsVal.varr .anil, t2)
     | _ => (parseElems fuel T).map (fun r => (JsVal.varr r.1, r.2))) =
    some (JsVal.varr .anil, t2) := by
  rw [h]
  rfl

theorem objGuard_open (fuel : Nat) (T : List Char) (c0 : Char) (R : List Char)
    (h : skipWs T = c0 :: R) (hne : c0 ≠ '\x7d') :
    (match skipWs T with
     | '\x7d' :: t2 => some (JsVal.vobj .onil, t2)
     | _ => (parseMembers fuel T).map (fun r => (JsVal.vobj r.1, r.2))) =
    (parseMembers fuel T).map (fun r => (JsVal.vobj r.1, r.2)) := by
  split
  · rename_i t2 heq
    rw [h] at heq
    injection heq with h1 _
    exact absurd h1 hne
  · rfl

theorem objGuard_close (fuel : Nat) (T : List Char) (t2 : List Char) (h : skipWs T = '\x7d' :: t2) :
    (match skipWs T with
     | '\x7d' :: t2 => some (JsVal.vobj .onil, t2)
     | _ => (parseMembers fuel T).map (fun r => (JsVal.vobj r.1, r.2))) =
    some (JsVal.vobj .onil, t2) := by
  rw [h]
  rfl

mutual

theorem jszV_le_print : ∀ (v : JsVal) (d : Nat), jszV v ≤ (printVal d v).length + 1
  | .vnull, _ => by simp only [jszV]; omega
  | .vbool true, _ => by simp only [jszV]; omega
  | .vbool false, _ => by simp only [jszV]; omega
  | .vnum _, _ => by simp only [jszV]; omega
  | .vstr _, _ => by simp only [jszV]; omega
  | .vref _, _ => by simp only [jszV]; omega
  | .varr .anil, _ => by simp only [jszV]; omega
  | .varr (.acons x t), d => by
    have h1 := jszV_le_print x (d + 1)
    have h2 := jszA_le_printRest t (d + 1)
    simp only [jszV, printVal, List.length_cons, List.length_append] at *
    omega
  | .vobj .onil, _ => by simp only [jszV]; omega
  | .vobj (.ocons k v t), d => by
    have h1 := jszV_le_print v (d + 1)
    have h2 := jszO_le_printMembersRest t (d + 1)
    simp only [jszV, printVal, List.length_cons, List.length_append] at *
    omega

theorem jszA_le_printRest : ∀ (a : JsArr) (d : Nat), jszA a ≤ (printRest d a).length + 1
  | .anil, _ => by simp only [jszA, printRest]; omega
  | .acons y t, d => by
    have h1 := jszV_le_print y d
    have h2 := jszA_le_printRest t d
    simp only [jszA, printRest, List.length_cons, List.length_append] at *
    omega

theorem jszO_le_printMembersRest :
    ∀ (o : JsObj) (d : Nat), jszO o ≤ (printMembersRest d o).length + 1
  | .onil, _ => by simp only [jszO, printMembersRest]; omega
  | .ocons k v t, d => by
    have h1 := jszV_le_print v d
    have h2 := jszO_le_printMembersRest t d
    simp only [jszO, printMembersRest, List.length_cons, List.length_append] at *
    omega

end

theorem natContains_of_mem (l : List Nat) (a : Nat) (h : a ∈ l) : l.contains a = true := by
  simpa using h

theorem mem_of_natContains (l : List Nat) (a : Nat) (h : l.contains a = true) : a ∈ l := by
  simpa using h
theorem parse_print_fuel : ∀ fuel : Nat,
    (∀ (v : JsVal) (d : Nat) (ws rest : List Char), refFree v = true → wsOnly ws →
      jszV v ≤ fuel → numOk rest →
      parseVal fuel (ws ++ (printVal d v ++ rest)) = some (v, rest)) ∧
    (∀ (x : JsVal) (t : JsArr) (d : Nat) (ws ind2 rest : List Char), refFree x = true →
      refFreeArr t = true → wsOnly ws → wsOnly ind2 → numOk rest →
      jszA (JsArr.acons x t) ≤ fuel →
      parseElems fuel (ws ++ (printVal d x ++ (printRest d t ++
        ('\n' :: (ind2 ++ (']' :: rest)))))) = some (JsArr.acons x t, rest)) ∧
    (∀ (k : String) (v : JsVal) (t : JsObj) (d : Nat) (ws ind2 rest : List Char),
      refFree v = true → refFreeObj t = true → wsOnly ws → wsOnly ind2 → numOk rest →
      jszO (JsObj.ocons k v t) ≤ fuel →
      parseMembers fuel (ws ++ (quoteJSON k ++ (':' :: ' ' :: (printVal d v ++
        (printMembersRest d t ++ ('\n' :: (ind2 ++ ('\x7d' :: rest)))))))) =
        some (JsObj.ocons k v t, rest)) := by
  intro fuel
  induction fuel with
  | zero =>
    refine ⟨?_, ?_, ?_⟩
    · intro v d ws rest _ _ hsz _
      exact absurd hsz (by have := jszV_pos v; omega)
    · intro x t d ws ind2 rest _ _ _ _ _ hsz
      exact absurd hsz (by have := jszA_pos (JsArr.acons x t); omega)
    · intro k v t d ws ind2 rest _ _ _ _ _ hsz
      exact absurd hsz (by have := jszO_pos (JsObj.ocons k v t); omega)
  | succ fuel ih =>
    obtain ⟨ih1, ih2, ih3⟩ := ih
    refine ⟨?_, ?_, ?_⟩
    · intro v d ws rest hrf hws hsz hnum
      cases v with
      | vnull =>
        have hskip : skipWs (ws ++ (printVal d .vnull ++ rest)) =
            'n' :: 'u' :: 'l' :: 'l' :: rest := by
          rw [skipWs_append _ _ hws]
          exact skipWs_cons_false _ _ (by decide)
        rw [parseVal_skipTo fuel _ _ hskip, parseVal_null]
      | vbool b =>
        cases b with
        | false =>
          have hskip : skipWs (ws ++ (printVal d (.vbool false) ++ rest)) =
              'f' :: 'a' :: 'l' :: 's' :: 'e' :: rest := by
            rw [skipWs_append _ _ hws]
            exact skipWs_cons_false _ _ (by decide)
          rw [parseVal_skipTo fuel _ _ hskip, parseVal_false]
        | true =>
          have hskip : skipWs (ws ++ (printVal d (.vbool true) ++ rest)) =
              't' :: 'r' :: 'u' :: 'e' :: rest := by
            rw [skipWs_append _ _ hws]
            exact skipWs_cons_false _ _ (by decide)
          rw [parseVal_skipTo fuel _ _ hskip, parseVal_true]
      | vnum n =>
        by_cases hn : n < 0
        · have e0 : printVal d (.vnum n) ++ rest = '-' :: (printNat (-n).toNat ++ rest) := by
            simp [printVal, printInt, hn]
          have hskip : skipWs (ws ++ (printVal d (.vnum n) ++ rest)) =
              '-' :: (printNat (-n).toNat ++ rest) := by
            rw [skipWs_append _ _ hws, e0]
            exact skipWs_cons_false _ _ (by decide)
          rw [parseVal_skipTo fuel _ _ hskip, parseVal_minus]
          rw [takeWhile_append_all _ _ (printNat_all_digits _) hnum]
          rw [dropWhile_append_all _ _ (printNat_all_digits _) hnum]
          rw [if_neg (by simp only [List.isEmpty_iff]; exact printNat_ne_nil _)]
          rw [parseNatChars_printNat]
          have hval : -(Int.ofNat ((-n).toNat)) = n := by
            rw [Int.ofNat_eq_coe, Int.toNat_of_nonneg (by omega)]
            omega
          rw [hval]
        · obtain ⟨c0, cs0, hcs⟩ := List.exists_cons_of_ne_nil (printNat_ne_nil n.toNat)
          have hdig : c0.isDigit = true := printNat_all_digits _ c0 (by rw [hcs]; simp)
          have e0 : printVal d (.vnum n) ++ rest = c0 :: (cs0 ++ rest) := by
            simp [printVal, printInt, hn, hcs]
          have hskip : skipWs (ws ++ (printVal d (.vnum n) ++ rest)) = c0 :: (cs0 ++ rest) := by
            rw [skipWs_append _ _ hws, e0]
            exact skipWs_cons_false _ _ (isJsonWs_false_of_isDigit _ hdig)
          rw [parseVal_skipTo fuel _ _ hskip, parseVal_digit fuel c0 _ hdig]
          rw [← List.cons_append, ← hcs]
          rw [takeWhile_append_all _ _ (printNat_all_digits _) hnum]
          rw [dropWhile_append_all _ _ (printNat_all_digits _) hnum]
          rw [parseNatChars_printNat]
          have hval : Int.ofNat n.toNat = n := by
            rw [Int.ofNat_eq_coe, Int.toNat_of_nonneg (by omega)]
          rw [hval]
      | vstr s =>
        have e0 : printVal d (.vstr s) ++ rest =
            '"' :: (s.data.flatMap escapeChar ++ ('"' :: rest)) := by
          simp [printVal, quoteJSON, List.cons_append, List.append_assoc, List.singleton_append]
        have hskip : skipWs (ws ++ (printVal d (.vstr s) ++ rest)) =
            '"' :: (s.data.flatMap escapeChar ++ ('"' :: rest)) := by
          rw [skipWs_append _ _ hws, e0]
          exact skipWs_cons_false _ _ (by decide)
        rw [parseVal_skipTo fuel _ _ hskip, parseVal_quote, parseStringBody_quote]
        rfl
      | varr a =>
        cases a with
        | anil =>
          have hskip : skipWs (ws ++ (printVal d (.varr .anil) ++ rest)) =
              '[' :: (']' :: rest) := by
            rw [skipWs_append _ _ hws]
            exact skipWs_cons_false _ _ (by decide)
          rw [parseVal_skipTo fuel _ _ hskip, parseVal_lbrack,
            arrGuard_close fuel _ rest (skipWs_cons_false _ _ (by decide))]
        | acons x t =>
          have hpair : refFree x = true ∧ refFreeArr t = true := by
            simpa [refFree, refFreeArr, Bool.and_eq_true] using hrf
          have hsz' : jszA (JsArr.acons x t) ≤ fuel := by
            simp only [jszV, jszA] at hsz ⊢
            omega
          obtain ⟨c0, cs0, hc0, hc0ws, hc0br, hc0ob⟩ := printVal_head (d + 1) x
          have e0 : printVal d (.varr (.acons x t)) ++ rest =
              '[' :: ('\n' :: (indentChars (d + 1) ++ (printVal (d + 1) x ++
                (printRest (d + 1) t ++ ('\n' :: (indentChars d ++ (']' :: rest))))))) := by
            simp [printVal, List.cons_append, List.append_assoc, List.singleton_append]
          have hskip : skipWs (ws ++ (printVal d (.varr (.acons x t)) ++ rest)) =
              '[' :: ('\n' :: (indentChars (d + 1) ++ (printVal (d + 1) x ++
                (printRest (d + 1) t ++ ('\n' :: (indentChars d ++ (']' :: rest))))))) := by
            rw [skipWs_append _ _ hws, e0]
            exact skipWs_cons_false _ _ (by decide)
          rw [parseVal_skipTo fuel _ _ hskip, parseVal_lbrack]
          have hskip2 : skipWs ('\n' :: (indentChars (d + 1) ++ (printVal (d + 1) x ++
              (printRest (d + 1) t ++ ('\n' :: (indentChars d ++ (']' :: rest))))))) =
              c0 :: (cs0 ++ (printRest (d + 1) t ++
                ('\n' :: (indentChars d ++ (']' :: rest))))) := by
            rw [skipWs_cons_true _ _ (by decide), skipWs_append _ _ (wsOnly_indentChars _), hc0,
              List.cons_append]
            exact skipWs_cons_false _ _ hc0ws
          rw [arrGuard_open fuel _ c0 _ hskip2 hc0br]
          have H := ih2 x t (d + 1) ('\n' :: indentChars (d + 1)) (indentChars d) rest hpair.1
            hpair.2 (wsOnly_cons _ _ (by decide) (wsOnly_indentChars _)) (wsOnly_indentChars _)
            hnum hsz'
          rw [List.cons_append] at H
          rw [H]
          rfl
      | vobj o =>
        cases o with
        | onil =>
          have hskip : skipWs (ws ++ (printVal d (.vobj .onil) ++ rest)) =
              '\x7b' :: ('\x7d' :: rest) := by
            rw [skipWs_append _ _ hws]
            exact skipWs_cons_false _ _ (by decide)
          rw [parseVal_skipTo fuel _ _ hskip, parseVal_lbrace,
            objGuard_close fuel _ rest (skipWs_cons_false _ _ (by decide))]
        | ocons k1 v1 t1 =>
          have hpair : refFree v1 = true ∧ refFreeObj t1 = true := by
            simpa [refFree, refFreeObj, Bool.and_eq_true] using hrf
          have hsz' : jszO (JsObj.ocons k1 v1 t1) ≤ fuel := by
            simp only [jszV, jszO] at hsz ⊢
            omega
          have e0 : printVal d (.vobj (.ocons k1 v1 t1)) ++ rest =
              '\x7b' :: ('\n' :: (indentChars (d + 1) ++ (quoteJSON k1 ++ (':' :: ' ' ::
                (printVal (d + 1) v1 ++ (printMembersRest (d + 1) t1 ++
                  ('\n' :: (indentChars d ++ ('\x7d' :: rest))))))))) := by
            simp [printVal, List.cons_append, List.append_assoc, List.singleton_append]
          have hskip : skipWs (ws ++ (printVal d (.vobj (.ocons k1 v1 t1)) ++ rest)) =
              '\x7b' :: ('\n' :: (indentChars (d + 1) ++ (quoteJSON k1 ++ (':' :: ' ' ::
                (printVal (d + 1) v1 ++ (printMembersRest (d + 1) t1 ++
                  ('\n' :: (indentChars d ++ ('\x7d' :: rest))))))))) := by
            rw [skipWs_append _ _ hws, e0]
            exact skipWs_cons_false _ _ (by decide)
          rw [parseVal_skipTo fuel _ _ hskip, parseVal_lbrace]
          have hskip2 : skipWs ('\n' :: (indentChars (d + 1) ++ (quoteJSON k1 ++ (':' :: ' ' ::
              (printVal (d + 1) v1 ++ (printMembersRest (d + 1) t1 ++
                ('\n' :: (indentChars d ++ ('\x7d' :: rest))))))))) =
              '"' :: (k1.data.flatMap escapeChar ++ ('"' :: (':' :: ' ' ::
                (printVal (d + 1) v1 ++ (printMembersRest (d + 1) t1 ++
                  ('\n' :: (indentChars d ++ ('\x7d' :: rest)))))))) := by
            rw [skipWs_cons_true _ _ (by decide), skipWs_append _ _ (wsOnly_indentChars _)]
            have e1 : quoteJSON k1 ++ (':' :: ' ' :: (printVal (d + 1) v1 ++
                (printMembersRest (d + 1) t1 ++ ('\n' :: (indentChars d ++ ('\x7d' :: rest)))))) =
                '"' :: (k1.data.flatMap escapeChar ++ ('"' :: (':' :: ' ' ::
                  (printVal (d + 1) v1 ++ (printMembersRest (d + 1) t1 ++
                    ('\n' :: (indentChars d ++ ('\x7d' :: rest)))))))) := by
              simp [quoteJSON, List.cons_append, List.append_assoc, List.singleton_append]
            rw [e1]
            exact skipWs_cons_false _ _ (by decide)
          rw [objGuard_open fuel _ '"' _ hskip2 (by decide)]
          have H := ih3 k1 v1 t1 (d + 1) ('\n' :: indentChars (d + 1)) (indentChars d) rest
            hpair.1 hpair.2 (wsOnly_cons _ _ (by decide) (wsOnly_indentChars _))
            (wsOnly_indentChars _) hnum hsz'
          rw [List.cons_append] at H
          rw [H]
          rfl
      | vref i => simp [refFree] at hrf
    · intro x t d ws ind2 rest hrfx hrft hws hind hnum hsz
      have hszx : jszV x ≤ fuel := by
        have := jszA_pos t
        simp only [jszA] at hsz
        omega
      have hnum0 : numOk (printRest d t ++ ('\n' :: (ind2 ++ (']' :: rest)))) := by
        cases t with
        | anil => simp only [printRest, List.nil_append]; exact numOk_cons _ _ (by decide)
        | acons y t2 => simp only [printRest, List.cons_append]; exact numOk_cons _ _ (by decide)
      have H1 := ih1 x d ws (printRest d t ++ ('\n' :: (ind2 ++ (']' :: rest)))) hrfx hws
        hszx hnum0
      rw [parseElems_step fuel _ x _ H1]
      cases t with
      | anil =>
        have hsk : skipWs (printRest d .anil ++ ('\n' :: (ind2 ++ (']' :: rest)))) =
            ']' :: rest := by
          simp only [printRest, List.nil_append]
          rw [skipWs_cons_true _ _ (by decide), skipWs_append _ _ hind]
          exact skipWs_cons_false _ _ (by decide)
        rw [elemsGuard_close fuel x _ rest hsk]
      | acons y t2 =>
        have hy : refFree y = true ∧ refFreeArr t2 = true := by
          simpa [refFreeArr, Bool.and_eq_true] using hrft
        have hsz2 : jszA (JsArr.acons y t2) ≤ fuel := by
          have := jszV_pos x
          simp only [jszA] at hsz ⊢
          omega
        have hsk : skipWs (printRest d (.acons y t2) ++ ('\n' :: (ind2 ++ (']' :: rest)))) =
            ',' :: ('\n' :: (indentChars d ++ (printVal d y ++ (printRest d t2 ++
              ('\n' :: (ind2 ++ (']' :: rest))))))) := by
          have e1 : printRest d (.acons y t2) ++ ('\n' :: (ind2 ++ (']' :: rest))) =
              ',' :: ('\n' :: (indentChars d ++ (printVal d y ++ (printRest d t2 ++
                ('\n' :: (ind2 ++ (']' :: rest))))))) := by
            simp [printRest, List.cons_append, List.append_assoc]
          rw [e1]
          exact skipWs_cons_false _ _ (by decide)
        rw [elemsGuard_comma fuel x _ _ hsk]
        have H2 := ih2 y t2 d ('\n' :: indentChars d) ind2 rest hy.1 hy.2
          (wsOnly_cons _ _ (by decide) (wsOnly_indentChars _)) hind hnum hsz2
        rw [List.cons_append] at H2
        rw [H2]
        rfl
    · intro k v t d ws ind2 rest hrfv hrft hws hind hnum hsz
      have hszv : jszV v ≤ fuel := by
        have := jszO_pos t
        simp only [jszO] at hsz
        omega
      have hskip : skipWs (ws ++ (quoteJSON k ++ (':' :: ' ' :: (printVal d v ++
          (printMembersRest d t ++ ('\n' :: (ind2 ++ ('\x7d' :: rest)))))))) =
          '"' :: (k.data.flatMap escapeChar ++ ('"' :: (':' :: ' ' :: (printVal d v ++
            (printMembersRest d t ++ ('\n' :: (ind2 ++ ('\x7d' :: rest)))))))) := by
        rw [skipWs_append _ _ hws]
        have e1 : quoteJSON k ++ (':' :: ' ' :: (printVal d v ++ (printMembersRest d t ++
            ('\n' :: (ind2 ++ ('\x7d' :: rest)))))) =
            '"' :: (k.data.flatMap escapeChar ++ ('"' :: (':' :: ' ' :: (printVal d v ++
              (printMembersRest d t ++ ('\n' :: (ind2 ++ ('\x7d' :: rest)))))))) := by
          simp [quoteJSON, List.cons_append, List.append_assoc, List.singleton_append]
        rw [e1]
        exact skipWs_cons_false _ _ (by decide)
      have hbody : parseStringBody (k.data.flatMap escapeChar ++ ('"' :: (':' :: ' ' ::
          (printVal d v ++ (printMembersRest d t ++ ('\n' :: (ind2 ++ ('\x7d' :: rest)))))))) =
          some (k.data, ':' :: ' ' :: (printVal d v ++ (printMembersRest d t ++
            ('\n' :: (ind2 ++ ('\x7d' :: rest)))))) := parseStringBody_quote _ _
      have hcolon : skipWs (':' :: ' ' :: (printVal d v ++ (printMembersRest d t ++
          ('\n' :: (ind2 ++ ('\x7d' :: rest)))))) =
          ':' :: (' ' :: (printVal d v ++ (printMembersRest d t ++
            ('\n' :: (ind2 ++ ('\x7d' :: rest)))))) := skipWs_cons_false _ _ (by decide)
      have hnum0 : numOk (printMembersRest d t ++ ('\n' :: (ind2 ++ ('\x7d' :: rest)))) := by
        cases t with
        | onil => simp only [printMembersRest, List.nil_append]; exact numOk_cons _ _ (by decide)
        | ocons k2 v2 t2 =>
          simp only [printMembersRest, List.cons_append]
          exact numOk_cons _ _ (by decide)
      have H1 := ih1 v d [' '] (printMembersRest d t ++ ('\n' :: (ind2 ++ ('\x7d' :: rest))))
        hrfv (wsOnly_cons _ _ (by decide) wsOnly_nil) hszv hnum0
      rw [List.singleton_append] at H1
      rw [parseMembers_step fuel _ _ k.data _ _ v _ hskip hbody hcolon H1]
      cases t with
      | onil =>
        have hsk : skipWs (printMembersRest d .onil ++ ('\n' :: (ind2 ++ ('\x7d' :: rest)))) =
            '\x7d' :: rest := by
          simp only [printMembersRest, List.nil_append]
          rw [skipWs_cons_true _ _ (by decide), skipWs_append _ _ hind]
          exact skipWs_cons_false _ _ (by decide)
        rw [memGuard_close fuel k.data v _ rest hsk]
      | ocons k2 v2 t2 =>
        have hp : refFree v2 = true ∧ refFreeObj t2 = true := by
          simpa [refFreeObj, Bool.and_eq_true] using hrft
        have hsz2 : jszO (JsObj.ocons k2 v2 t2) ≤ fuel := by
          have := jszV_pos v
          simp only [jszO] at hsz ⊢
          omega
        have hsk : skipWs (printMembersRest d (.ocons k2 v2 t2) ++
            ('\n' :: (ind2 ++ ('\x7d' :: rest)))) =
            ',' :: ('\n' :: (indentChars d ++ (quoteJSON k2 ++ (':' :: ' ' :: (printVal d v2 ++
              (printMembersRest d t2 ++ ('\n' :: (ind2 ++ ('\x7d' :: rest))))))))) := by
          have e1 : printMembersRest d (.ocons k2 v2 t2) ++
              ('\n' :: (ind2 ++ ('\x7d' :: rest))) =
              ',' :: ('\n' :: (indentChars d ++ (quoteJSON k2 ++ (':' :: ' ' ::
                (printVal d v2 ++ (printMembersRest d t2 ++
                  ('\n' :: (ind2 ++ ('\x7d' :: rest))))))))) := by
            simp [printMembersRest, List.cons_append, List.append_assoc]
          rw [e1]
          exact skipWs_cons_false _ _ (by decide)
        rw [memGuard_comma fuel k.data v _ _ hsk]
        have H3 := ih3 k2 v2 t2 d ('\n' :: indentChars d) ind2 rest hp.1 hp.2
          (wsOnly_cons _ _ (by decide) (wsOnly_indentChars _)) hind hnum hsz2
        rw [List.cons_append] at H3
        rw [H3]
        rfl

theorem parseJson_printVal (v : JsVal) (h : refFree v = true) :
    parseJson (String.mk (printVal 0 v)) = some v := by
  have H := (parse_print_fuel ((printVal 0 v).length + 1)).1 v 0 [] [] h wsOnly_nil
    (by have := jszV_le_print v 0; omega) numOk_nil
  simp only [List.nil_append, List.append_nil] at H
  have e1 : (String.mk (printVal 0 v)).data = printVal 0 v := rfl
  have e2 : (String.mk (printVal 0 v)).length = (printVal 0 v).length := rfl
  unfold parseJson
  rw [e1, e2, H]
  rfl
theorem stringify_refFree_fuel : ∀ fuel : Nat,
    (∀ (env : List JsVal) (opens : List Nat) (d : Nat) (v : JsVal), refFree v = true →
      jszV v ≤ fuel → stringifyV env fuel opens d v = some (printVal d v)) ∧
    (∀ (env : List JsVal) (opens : List Nat) (d : Nat) (a : JsArr), refFreeArr a = true →
      jszA a ≤ fuel → stringifyRest env fuel opens d a = some (printRest d a)) ∧
    (∀ (env : List JsVal) (opens : List Nat) (d : Nat) (o : JsObj), refFreeObj o = true →
      jszO o ≤ fuel → stringifyMembersRest env fuel opens d o = some (printMembersRest d o)) := by
  intro fuel
  induction fuel with
  | zero =>
    refine ⟨?_, ?_, ?_⟩
    · intro env opens d v _ hsz
      exact absurd hsz (by have := jszV_pos v; omega)
    · intro env opens d a _ hsz
      exact absurd hsz (by have := jszA_pos a; omega)
    · intro env opens d o _ hsz
      exact absurd hsz (by have := jszO_pos o; omega)
  | succ fuel ih =>
    obtain ⟨ih1, ih2, ih3⟩ := ih
    refine ⟨?_, ?_, ?_⟩
    · intro env opens d v hrf hsz
      cases v with
      | vnull => rfl
      | vbool b => cases b <;> rfl
      | vnum n => rfl
      | vstr s => rfl
      | vref i => simp [refFree] at hrf
      | varr a =>
        cases a with
        | anil => rfl
        | acons x t =>
          have hp : refFree x = true ∧ refFreeArr t = true := by
            simpa [refFree, refFreeArr, Bool.and_eq_true] using hrf
          have hx : jszV x ≤ fuel := by
            have := jszA_pos t
            simp only [jszV] at hsz
            omega
          have ht : jszA t ≤ fuel := by
            have := jszV_pos x
            simp only [jszV] at hsz
            omega
          have H1 : stringifyV env fuel opens (d + 1) x = some (printVal (d + 1) x) :=
            ih1 env opens (d + 1) x hp.1 hx
          have H2 : stringifyRest env fuel opens (d + 1) t = some (printRest (d + 1) t) :=
            ih2 env opens (d + 1) t hp.2 ht
          simp only [stringifyV]
          rw [H1, H2]
          rfl
      | vobj o =>
        cases o with
        | onil => rfl
        | ocons k v t =>
          have hp : refFree v = true ∧ refFreeObj t = true := by
            simpa [refFree, refFreeObj, Bool.and_eq_true] using hrf
          have hv : jszV v ≤ fuel := by
            have := jszO_pos t
            simp only [jszV] at hsz
            omega
          have ht : jszO t ≤ fuel := by
            have := jszV_pos v
            simp only [jszV] at hsz
            omega
          have H1 : stringifyV env fuel opens (d + 1) v = some (printVal (d + 1) v) :=
            ih1 env opens (d + 1) v hp.1 hv
          have H2 : stringifyMembersRest env fuel opens (d + 1) t =
              some (printMembersRest (d + 1) t) := ih3 env opens (d + 1) t hp.2 ht
          simp only [stringifyV]
          rw [H1, H2]
          rfl
    · intro env opens d a hrf hsz
      cases a with
      | anil => rfl
      | acons y t =>
        have hp : refFree y = true ∧ refFreeArr t = true := by
          simpa [refFreeArr, Bool.and_eq_true] using hrf
        have hy : jszV y ≤ fuel := by
          have := jszA_pos t
          simp only [jszA] at hsz
          omega
        have ht : jszA t ≤ fuel := by
          have := jszV_pos y
          simp only [jszA] at hsz
          omega
        have H1 : stringifyV env fuel opens d y = some (printVal d y) :=
          ih1 env opens d y hp.1 hy
        have H2 : stringifyRest env fuel opens d t = some (printRest d t) :=
          ih2 env opens d t hp.2 ht
        simp only [stringifyRest]
        rw [H1, H2]
        rfl
    · intro env opens d o hrf hsz
      cases o with
      | onil => rfl
      | ocons k v t =>
        have hp : refFree v = true ∧ refFreeObj t = true := by
          simpa [refFreeObj, Bool.and_eq_true] using hrf
        have hv : jszV v ≤ fuel := by
          have := jszO_pos t
          simp only [jszO] at hsz
          omega
        have ht : jszO t ≤ fuel := by
          have := jszV_pos v
          simp only [jszO] at hsz
          omega
        have H1 : stringifyV env fuel opens d v = some (printVal d v) :=
          ih1 env opens d v hp.1 hv
        have H2 : stringifyMembersRest env fuel opens d t = some (printMembersRest d t) :=
          ih3 env opens d t hp.2 ht
        simp only [stringifyMembersRest]
        rw [H1, H2]
        rfl

theorem stringifyJS_refFree (env : List JsVal) (v : JsVal) (h : refFree v = true) :
    stringifyJS env v = some (String.mk (printVal 0 v)) := by
  unfold stringifyJS
  rw [(stringify_refFree_fuel (jszV v + jszEnv env)).1 env [] 0 v h (by omega)]
  rfl

theorem stringifyRest_mem_none (env : List JsVal) (opens : List Nat) (x : JsVal) (F : Nat)
    (hx : ∀ f d, f < F → stringifyV env f opens d x = none) :
    ∀ (t : JsArr) (f d : Nat), f ≤ F → aMem x t → stringifyRest env f opens d t = none
  | .anil, _, _, _, hm => absurd hm (by simp [aMem])
  | _, 0, _, _, _ => rfl
  | .acons y t2, f + 1, d, hf, hm => by
    simp only [aMem] at hm
    rcases hm with rfl | hm2
    · simp only [stringifyRest, hx f d (by omega)]
    · simp only [stringifyRest]
      cases hsv : stringifyV env f opens d y with
      | none => rfl
      | some sy =>
        rw [stringifyRest_mem_none env opens x F hx t2 f d (by omega) hm2]
        rfl

theorem stringifyMembersRest_memVal_none (env : List JsVal) (opens : List Nat) (x : JsVal)
    (F : Nat) (hx : ∀ f d, f < F → stringifyV env f opens d x = none) :
    ∀ (o : JsObj) (f d : Nat), f ≤ F → oMemVal x o → stringifyMembersRest env f opens d o = none
  | .onil, _, _, _, hm => absurd hm (by simp [oMemVal])
  | _, 0, _, _, _ => rfl
  | .ocons k y t2, f + 1, d, hf, hm => by
    simp only [oMemVal] at hm
    rcases hm with rfl | hm2
    · simp only [stringifyMembersRest, hx f d (by omega)]
    · simp only [stringifyMembersRest]
      cases hsv : stringifyV env f opens d y with
      | none => rfl
      | some sy =>
        rw [stringifyMembersRest_memVal_none env opens x F hx t2 f d (by omega) hm2]
        rfl

theorem stringify_reaches_none (env : List JsVal) {v : JsVal} {i : Nat}
    (hr : Reaches env v i) :
    ∀ fuel (opens : List Nat) (d : Nat), i ∈ opens → stringifyV env fuel opens d v = none := by
  induction hr with
  | here j =>
    intro fuel opens d hmem
    cases fuel with
    | zero => rfl
    | succ fuel =>
      simp only [stringifyV]
      rw [if_pos (natContains_of_mem opens j hmem)]
  | inArr hmem hrx ih =>
    rename_i x xs i
    intro fuel opens d hop
    cases fuel with
    | zero => rfl
    | succ fuel =>
      cases xs with
      | anil => exact absurd hmem (by simp [aMem])
      | acons x0 t =>
        simp only [aMem] at hmem
        rcases hmem with rfl | hm2
        · simp only [stringifyV, ih fuel opens (d + 1) hop]
        · simp only [stringifyV]
          cases hsv : stringifyV env fuel opens (d + 1) x0 with
          | none => rfl
          | some sx =>
            rw [stringifyRest_mem_none env opens x fuel (fun f dd _ => ih f opens dd hop)
              t fuel (d + 1) (le_refl _) hm2]
            rfl
  | inObj hmem hrx ih =>
    rename_i x fs i
    intro fuel opens d hop
    cases fuel with
    | zero => rfl
    | succ fuel =>
      cases fs with
      | onil => exact absurd hmem (by simp [oMemVal])
      | ocons k0 v0 t =>
        simp only [oMemVal] at hmem
        rcases hmem with rfl | hm2
        · simp only [stringifyV, ih fuel opens (d + 1) hop]
        · simp only [stringifyV]
          cases hsv : stringifyV env fuel opens (d + 1) v0 with
          | none => rfl
          | some sv =>
            rw [stringifyMembersRest_memVal_none env opens x fuel
              (fun f dd _ => ih f opens dd hop) t fuel (d + 1) (le_refl _) hm2]
            rfl
  | hop hj hrw ih =>
    rename_i j w i
    intro fuel opens d hopn
    cases fuel with
    | zero => rfl
    | succ fuel =>
      simp only [stringifyV]
      by_cases hjop : j ∈ opens
      · rw [if_pos (natContains_of_mem opens j hjop)]
      · rw [if_neg (fun hc => hjop (mem_of_natContains opens j hc)), hj]
        show stringifyV env fuel (j :: opens) d w = none
        exact ih fuel (j :: opens) d (List.mem_cons_of_mem _ hopn)

theorem stringify_cyclic_none (env : List JsVal) {i : Nat} {w : JsVal}
    (hw : env.get? i = some w) (hrw : Reaches env w i) :
    ∀ (fuel : Nat) (v : JsVal) (opens : List Nat) (d : Nat), Reaches env v i →
      stringifyV env fuel opens d v = none := by
  intro fuel
  induction fuel using Nat.strong_induction_on with
  | _ fuel IH =>
    intro v opens d hr
    cases fuel with
    | zero => rfl
    | succ F =>
      cases hr with
      | here =>
        simp only [stringifyV]
        by_cases hiop : i ∈ opens
        · rw [if_pos (natContains_of_mem _ _ hiop)]
        · rw [if_neg (fun hc => hiop (mem_of_natContains _ _ hc)), hw]
          show stringifyV env F (i :: opens) d w = none
          exact stringify_reaches_none env hrw F (i :: opens) d (List.mem_cons_self _ _)
      | inArr hmem hrx =>
        rename_i x xs
        cases xs with
        | anil => exact absurd hmem (by simp [aMem])
        | acons x0 t =>
          simp only [aMem] at hmem
          rcases hmem with rfl | hm2
          · simp only [stringifyV, IH F (by omega) x opens (d + 1) hrx]
          · simp only [stringifyV]
            cases hsv : stringifyV env F opens (d + 1) x0 with
            | none => rfl
            | some sx =>
              rw [stringifyRest_mem_none env opens x F
                (fun f dd hf => IH f (by omega) x opens dd hrx) t F (d + 1) (le_refl _) hm2]
              rfl
      | inObj hmem hrx =>
        rename_i x fs
        cases fs with
        | onil => exact absurd hmem (by simp [oMemVal])
        | ocons k0 v0 t =>
          simp only [oMemVal] at hmem
          rcases hmem with rfl | hm2
          · simp only [stringifyV, IH F (by omega) x opens (d + 1) hrx]
          · simp only [stringifyV]
            cases hsv : stringifyV env F opens (d + 1) v0 with
            | none => rfl
            | some sv =>
              rw [stringifyMembersRest_memVal_none env opens x F
                (fun f dd hf => IH f (by omega) x opens dd hrx) t F (d + 1) (le_refl _) hm2]
              rfl
      | hop hj2 hrv =>
        rename_i j w2
        simp only [stringifyV]
        by_cases hjop : j ∈ opens
        · rw [if_pos (natContains_of_mem _ _ hjop)]
        · rw [if_neg (fun hc => hjop (mem_of_natContains _ _ hc)), hj2]
          show stringifyV env F (j :: opens) d w2 = none
          exact IH F (by omega) w2 (j :: opens) d hrv

theorem stringifyJS_cyclic (env : List JsVal) (data : JsVal) (h : CyclicFrom env data) :
    stringifyJS env data = none := by
  obtain ⟨i, w, hr, hw, hrw⟩ := h
  unfold stringifyJS
  rw [stringify_cyclic_none env hw hrw _ data [] 0 hr]
  rfl
/-! ## C9: the `enhanced` field of the `.proguardian` marker record -/

set_option maxRecDepth 100000 in
/-- C9 counterexample to the claim as stated: running `init` on an
empty directory with `force = true` — so the context file is newly
created by init and no pre-existing file was found — persists a marker
record whose `enhanced` field is `true`, not `false`: the code
evaluates `securePathExists(targetPath)` only after writing the
context file. -/
theorem initCommand_enhanced_cex :
    (initCommand "/p" permsAll [] true none none "claude" (some "TEMPLATE")
      "2026-01-01T00:00:00.000Z" "s1" "s2").res = .ok () ∧
    (fsFind (initCommand "/p" permsAll [] true none none "claude" (some "TEMPLATE")
      "2026-01-01T00:00:00.000Z" "s1" "s2").fs "/p/.proguardian").bind parseJson =
      some (markerRecord "2026-01-01T00:00:00.000Z" "claude" "CLAUDE.md" true) :=
  ⟨rfl, rfl⟩

/-- C9 (amended).  After `init` creates the context file in a
directory where the target does not yet exist, with `force = true`,
the persisted marker record's `enhanced` field records
`securePathExists(targetPath)` evaluated on the post-write filesystem
— so it is `true` whenever the context-file write succeeded, even
though the target file was newly created by init. -/
theorem initCommand_enhanced (cwd : String) (perms : Perms) (fs : FS)
    (cliType template nowISO tmp1 tmp2 targetPath markerPath : String)
    (hvalT : validateSafePath cwd cwd (getTargetFilename cliType) = .ok targetPath)
    (hvalTP : validateSafePath cwd cwd targetPath = .ok targetPath)
    (hvalM : validateSafePath cwd cwd ".proguardian" = .ok markerPath)
    (hvalMP : validateSafePath cwd cwd markerPath = .ok markerPath)
    (hnoexist : fsFind fs targetPath = none)
    (hdirT : perms.canWrite (pathDirname targetPath) = true)
    (hdirM : perms.canWrite (pathDirname markerPath) = true)
    (hfileM : perms.canWrite markerPath = true) :
    (initCommand cwd perms fs true none none cliType (some template) nowISO tmp1 tmp2).res
      = .ok () ∧
    (fsFind (initCommand cwd perms fs true none none cliType (some template) nowISO tmp1
      tmp2).fs markerPath).bind parseJson =
      some (markerRecord nowISO cliType (getTargetFilename cliType) true) := by
  have hexists : securePathExists cwd fs targetPath = false := by
    unfold securePathExists
    simp only [hvalTP, hnoexist, Option.isSome_none]
  have hrun1 := secureWriteFile_run cwd perms .complete "" fs targetPath
    (guardianMarker ++ "\n\n" ++ template) tmp1 targetPath hvalTP hdirT
    (fun hs => absurd hs (by rw [hnoexist]; simp))
  have hstep1 : initCommand cwd perms fs true none none cliType (some template) nowISO tmp1
      tmp2 = writeMarkerStep cwd perms
        (fsInsert (fsErase (fsInsert fs (targetPath ++ ".tmp." ++ tmp1)
            (guardianMarker ++ "\n\n" ++ template)) (targetPath ++ ".tmp." ++ tmp1))
          targetPath (guardianMarker ++ "\n\n" ++ template))
        cwd cliType (getTargetFilename cliType) targetPath nowISO tmp2 := by
    unfold initCommand
    simp [Option.getD_none, hvalT, hexists, hrun1]
  have hrfm : refFree (markerRecord nowISO cliType (getTargetFilename cliType) true) =
      true := rfl
  have hstr : stringifyJS [] (markerRecord nowISO cliType (getTargetFilename cliType) true) =
      some (String.mk (printVal 0
        (markerRecord nowISO cliType (getTargetFilename cliType) true))) :=
    stringifyJS_refFree _ _ hrfm
  have henh : securePathExists cwd
      (fsInsert (fsErase (fsInsert fs (targetPath ++ ".tmp." ++ tmp1)
          (guardianMarker ++ "\n\n" ++ template)) (targetPath ++ ".tmp." ++ tmp1))
        targetPath (guardianMarker ++ "\n\n" ++ template)) targetPath = true := by
    unfold securePathExists
    simp only [hvalTP, fsFind_insert_self, Option.isSome_some]
  have hrun2 := secureWriteFile_run cwd perms .complete ""
    (fsInsert (fsErase (fsInsert fs (targetPath ++ ".tmp." ++ tmp1)
        (guardianMarker ++ "\n\n" ++ template)) (targetPath ++ ".tmp." ++ tmp1))
      targetPath (guardianMarker ++ "\n\n" ++ template))
    markerPath
    (String.mk (printVal 0 (markerRecord nowISO cliType (getTargetFilename cliType) true)))
    tmp2 markerPath hvalMP hdirM (fun _ => hfileM)
  have hstep2 : writeMarkerStep cwd perms
      (fsInsert (fsErase (fsInsert fs (targetPath ++ ".tmp." ++ tmp1)
          (guardianMarker ++ "\n\n" ++ template)) (targetPath ++ ".tmp." ++ tmp1))
        targetPath (guardianMarker ++ "\n\n" ++ template))
      cwd cliType (getTargetFilename cliType) targetPath nowISO tmp2 =
      ⟨.ok (), fsInsert (fsErase (fsInsert
          (fsInsert (fsErase (fsInsert fs (targetPath ++ ".tmp." ++ tmp1)
              (guardianMarker ++ "\n\n" ++ template)) (targetPath ++ ".tmp." ++ tmp1))
            targetPath (guardianMarker ++ "\n\n" ++ template))
          (markerPath ++ ".tmp." ++ tmp2)
          (String.mk (printVal 0
            (markerRecord nowISO cliType (getTargetFilename cliType) true))))
          (markerPath ++ ".tmp." ++ tmp2)) markerPath
        (String.mk (printVal 0
          (markerRecord nowISO cliType (getTargetFilename cliType) true)))⟩ := by
    unfold writeMarkerStep
    simp only [hvalM, henh]
    unfold secureWriteJSON
    simp [hstr, hrun2]
  refine ⟨?_, ?_⟩
  · rw [hstep1, hstep2]
  · rw [hstep1, hstep2]
    show (fsFind (fsInsert (fsErase (fsInsert
        (fsInsert (fsErase (fsInsert fs (targetPath ++ ".tmp." ++ tmp1)
            (guardianMarker ++ "\n\n" ++ template)) (targetPath ++ ".tmp." ++ tmp1))
          targetPath (guardianMarker ++ "\n\n" ++ template))
        (markerPath ++ ".tmp." ++ tmp2)
        (String.mk (printVal 0
          (markerRecord nowISO cliType (getTargetFilename cliType) true))))
        (markerPath ++ ".tmp." ++ tmp2)) markerPath
      (String.mk (printVal 0
        (markerRecord nowISO cliType (getTargetFilename cliType) true)))) markerPath).bind
      parseJson = some (markerRecord nowISO cliType (getTargetFilename cliType) true)
    rw [fsFind_insert_self]
    show parseJson (String.mk (printVal 0
      (markerRecord nowISO cliType (getTargetFilename cliType) true))) =
      some (markerRecord nowISO cliType (getTargetFilename cliType) true)
    exact parseJson_printVal _ hrfm

/-- Witness for C9 at a concrete run on an empty directory. -/
theorem initCommand_enhanced_witness :
    validateSafePath "/p" "/p" (getTargetFilename "claude") = .ok "/p/CLAUDE.md" ∧
    fsFind ([] : FS) "/p/CLAUDE.md" = none ∧
    ((initCommand "/p" permsAll [] true none none "claude" (some "T") "now" "s1" "s2").res
      = .ok () ∧
    (fsFind (initCommand "/p" permsAll [] true none none "claude" (some "T") "now" "s1"
      "s2").fs "/p/.proguardian").bind parseJson =
      some (markerRecord "now" "claude" (getTargetFilename "claude") true)) :=
  ⟨rfl, rfl, initCommand_enhanced "/p" permsAll [] "claude" "T" "now" "s1" "s2"
    "/p/CLAUDE.md" "/p/.proguardian" rfl rfl rfl rfl rfl rfl rfl rfl⟩
/-- A failing low-level read propagates through `secureReadJSON`. -/
theorem secureReadJSON_err (cwd : String) (perms : Perms) (fs : FS) (p : String) (e : ErrKind)
    (h : secureReadFile cwd perms fs p 10485760 = .error e) :
    secureReadJSON cwd perms fs p = .error e := by
  unfold secureReadJSON
  rw [h]

/-- A successful read followed by a successful parse determines
`secureReadJSON`. -/
theorem secureReadJSON_ok (cwd : String) (perms : Perms) (fs : FS) (p : String)
    (content : String) (v : JsVal) (h : secureReadFile cwd perms fs p 10485760 = .ok content)
    (hp : parseJson content = some v) :
    secureReadJSON cwd perms fs p = .ok v := by
  unfold secureReadJSON
  simp only [h, hp]

/-! ## C6: `secureWriteJSON` / `secureReadJSON` round-trip -/

/-- C6 (amended).  Round-trip with the read-size ceiling made explicit:
for a reference-free (cycle-free, JSON-serializable) value whose
serialized text fits the 10485760-byte `secureReadFile` ceiling, and a
path that validates with write and read permission,
`secureWriteJSON` succeeds and `secureReadJSON` of the same path
returns the value; and for every cyclic object graph, `secureWriteJSON`
fails with `Validation` leaving the filesystem untouched, whatever the
failure injection or partial content, i.e. before any bytes are
written. -/
theorem secureWriteJSON_roundtrip (cwd : String) (perms : Perms) (fs : FS)
    (filePath tmpSuffix safePath : String) (env : List JsVal) (data cdata : JsVal)
    (hrf : refFree data = true)
    (hlen : (printVal 0 data).length ≤ 10485760)
    (hval : validateSafePath cwd cwd filePath = .ok safePath)
    (hdir : perms.canWrite (pathDirname safePath) = true)
    (hfile : (fsFind fs safePath).isSome → perms.canWrite safePath = true)
    (hread : perms.canRead safePath = true)
    (hcyc : CyclicFrom env cdata) :
    ((secureWriteJSON cwd perms .complete "" fs filePath [] data tmpSuffix).res = .ok () ∧
      secureReadJSON cwd perms
        (secureWriteJSON cwd perms .complete "" fs filePath [] data tmpSuffix).fs filePath =
        .ok data) ∧
    (∀ (inject : WriteFailure) (pc : String),
      secureWriteJSON cwd perms inject pc fs filePath env cdata tmpSuffix =
        ⟨.error .validation, fs, [fs]⟩) := by
  have hwrite : secureWriteJSON cwd perms .complete "" fs filePath [] data tmpSuffix =
      secureWriteFile cwd perms .complete "" fs filePath (String.mk (printVal 0 data))
        tmpSuffix := by
    unfold secureWriteJSON
    rw [stringifyJS_refFree [] data hrf]
  have hrun := secureWriteFile_run cwd perms .complete "" fs filePath
    (String.mk (printVal 0 data)) tmpSuffix safePath hval hdir hfile
  refine ⟨⟨?_, ?_⟩, ?_⟩
  · rw [hwrite, hrun]
  · rw [hwrite, hrun]
    show secureReadJSON cwd perms
      (fsInsert (fsErase (fsInsert fs (safePath ++ ".tmp." ++ tmpSuffix)
          (String.mk (printVal 0 data))) (safePath ++ ".tmp." ++ tmpSuffix)) safePath
        (String.mk (printVal 0 data))) filePath = .ok data
    have hfind := fsFind_insert_self (fsErase (fsInsert fs (safePath ++ ".tmp." ++ tmpSuffix)
      (String.mk (printVal 0 data))) (safePath ++ ".tmp." ++ tmpSuffix)) safePath
      (String.mk (printVal 0 data))
    have hrd : secureReadFile cwd perms
        (fsInsert (fsErase (fsInsert fs (safePath ++ ".tmp." ++ tmpSuffix)
            (String.mk (printVal 0 data))) (safePath ++ ".tmp." ++ tmpSuffix)) safePath
          (String.mk (printVal 0 data))) filePath 10485760 =
        .ok (String.mk (printVal 0 data)) := by
      unfold secureReadFile
      simp only [hval, hfind]
      rw [if_neg (by simp [hread])]
      rw [if_neg (by
        have e : (String.mk (printVal 0 data)).length = (printVal 0 data).length := rfl
        omega)]
    exact secureReadJSON_ok _ _ _ _ _ _ hrd (parseJson_printVal data hrf)
  · intro inject pc
    unfold secureWriteJSON
    rw [stringifyJS_cyclic env cdata hcyc]

/-- C6 counterexample to the unamended claim: a cycle-free,
JSON-serializable value (a 10485759-character string) on a valid,
fully permitted path round-trips through a successful
`secureWriteJSON`, yet `secureReadJSON` does not return it — the
serialized text exceeds the 10 MiB read ceiling and the read fails
with `SecurityError`. -/
theorem secureWriteJSON_roundtrip_cex :
    validateSafePath "/p" "/p" "cfg.json" = .ok "/p/cfg.json" ∧
    refFree (JsVal.vstr (String.mk (List.replicate 10485759 'a'))) = true ∧
    (secureWriteJSON "/p" permsAll .complete "" [] "cfg.json" []
      (JsVal.vstr (String.mk (List.replicate 10485759 'a'))) "ab").res = .ok () ∧
    secureReadJSON "/p" permsAll
      (secureWriteJSON "/p" permsAll .complete "" [] "cfg.json" []
        (JsVal.vstr (String.mk (List.replicate 10485759 'a'))) "ab").fs "cfg.json" =
      .error .security := by
  have hflat : ∀ n : Nat, (List.replicate n 'a').flatMap escapeChar =
      List.replicate n 'a' := by
    intro n
    induction n with
    | zero => rfl
    | succ m ih =>
      rw [List.replicate_succ, List.flatMap_cons, ih]
      rfl
  have hlen2 : ('"' :: (List.replicate 10485759 'a' ++ ['"'])).length = 10485761 := by
    rw [List.length_cons, List.length_append, List.length_replicate]
    rfl
  have hlen161 : (printVal 0 (JsVal.vstr (String.mk (List.replicate 10485759 'a')))).length =
      10485761 := by
    show (quoteJSON (String.mk (List.replicate 10485759 'a'))).length = 10485761
    unfold quoteJSON
    rw [show (String.mk (List.replicate 10485759 'a')).data = List.replicate 10485759 'a'
      from rfl]
    rw [hflat]
    exact hlen2
  have hrf : refFree (JsVal.vstr (String.mk (List.replicate 10485759 'a'))) = true := rfl
  have hwrite : secureWriteJSON "/p" permsAll .complete "" [] "cfg.json" []
      (JsVal.vstr (String.mk (List.replicate 10485759 'a'))) "ab" =
      secureWriteFile "/p" permsAll .complete "" [] "cfg.json"
        (String.mk (printVal 0 (JsVal.vstr (String.mk (List.replicate 10485759 'a'))))) "ab" := by
    unfold secureWriteJSON
    rw [stringifyJS_refFree _ _ hrf]
  have hrun := secureWriteFile_run "/p" permsAll .complete "" [] "cfg.json"
    (String.mk (printVal 0 (JsVal.vstr (String.mk (List.replicate 10485759 'a'))))) "ab"
    "/p/cfg.json" rfl rfl (fun _ => rfl)
  refine ⟨rfl, rfl, ?_, ?_⟩
  · rw [hwrite, hrun]
  · rw [hwrite, hrun]
    show secureReadJSON "/p" permsAll
      (fsInsert (fsErase (fsInsert [] ("/p/cfg.json" ++ ".tmp." ++ "ab")
          (String.mk (printVal 0 (JsVal.vstr (String.mk (List.replicate 10485759 'a'))))))
          ("/p/cfg.json" ++ ".tmp." ++ "ab")) "/p/cfg.json"
        (String.mk (printVal 0 (JsVal.vstr (String.mk (List.replicate 10485759 'a'))))))
      "cfg.json" = .error .security
    have hfind := fsFind_insert_self (fsErase (fsInsert []
      ("/p/cfg.json" ++ ".tmp." ++ "ab")
      (String.mk (printVal 0 (JsVal.vstr (String.mk (List.replicate 10485759 'a'))))))
      ("/p/cfg.json" ++ ".tmp." ++ "ab")) "/p/cfg.json"
      (String.mk (printVal 0 (JsVal.vstr (String.mk (List.replicate 10485759 'a')))))
    have hrd : secureReadFile "/p" permsAll
        (fsInsert (fsErase (fsInsert [] ("/p/cfg.json" ++ ".tmp." ++ "ab")
            (String.mk (printVal 0 (JsVal.vstr (String.mk (List.replicate 10485759 'a'))))))
            ("/p/cfg.json" ++ ".tmp." ++ "ab")) "/p/cfg.json"
          (String.mk (printVal 0 (JsVal.vstr (String.mk (List.replicate 10485759 'a'))))))
        "cfg.json" 10485760 = .error .security := by
      unfold secureReadFile
      simp only [show validateSafePath "/p" "/p" "cfg.json" = .ok "/p/cfg.json" from rfl, hfind]
      rw [if_neg (fun h => h rfl)]
      rw [if_pos (by
        have e : (String.mk (printVal 0 (JsVal.vstr (String.mk
            (List.replicate 10485759 'a'))))).length =
            (printVal 0 (JsVal.vstr (String.mk (List.replicate 10485759 'a')))).length := rfl
        omega)]
    exact secureReadJSON_err _ _ _ _ _ hrd

/-- Witness for C6 at a concrete small object and a concrete cyclic
environment. -/
theorem secureWriteJSON_roundtrip_witness :
    refFree (JsVal.vobj (.ocons "k" (.vstr "v") .onil)) = true ∧
    CyclicFrom [JsVal.vobj (.ocons "self" (.vref 0) .onil)] (.vref 0) ∧
    (((secureWriteJSON "/p" permsAll .complete "" [] "cfg.json" []
        (JsVal.vobj (.ocons "k" (.vstr "v") .onil)) "ab").res = .ok () ∧
      secureReadJSON "/p" permsAll
        (secureWriteJSON "/p" permsAll .complete "" [] "cfg.json" []
          (JsVal.vobj (.ocons "k" (.vstr "v") .onil)) "ab").fs "cfg.json" =
        .ok (JsVal.vobj (.ocons "k" (.vstr "v") .onil))) ∧
      (∀ (inject : WriteFailure) (pc : String),
        secureWriteJSON "/p" permsAll inject pc [] "cfg.json"
          [JsVal.vobj (.ocons "self" (.vref 0) .onil)] (.vref 0) "ab" =
          ⟨.error .validation, [], [[]]⟩)) := by
  have hcyc : CyclicFrom [JsVal.vobj (.ocons "self" (.vref 0) .onil)] (.vref 0) :=
    ⟨0, JsVal.vobj (.ocons "self" (.vref 0) .onil), .here 0, rfl,
      .inObj (Or.inl rfl) (.here 0)⟩
  exact ⟨rfl, hcyc,
    secureWriteJSON_roundtrip "/p" permsAll [] "cfg.json" "ab" "/p/cfg.json"
      [JsVal.vobj (.ocons "self" (.vref 0) .onil)]
      (JsVal.vobj (.ocons "k" (.vstr "v") .onil)) (.vref 0) rfl (by decide) rfl rfl
      (fun _ => rfl) rfl hcyc⟩

end PG
